import Mathlib

/-!
Verification of the release-asset validation and canonicalization pipeline of
`detection_rules/devtools.py` (`validate_ml_dga_asset`, `validate_ml_detections_asset`).

The embedding models:
* JSON values (`Json`) as produced by Python's `json.load` and serialized by
  `json.dumps(..., sort_keys=True)` (default separators `", "` and `": "`,
  `ensure_ascii=True`).  Numbers are modelled as arbitrary-precision integers;
  float literals (a fraction or exponent part) are outside the model and the
  parser rejects them.  Python's `json.loads` additionally accepts lone
  surrogate escapes, which a Lean `Char` cannot represent; the modelled parser
  rejects those.  Neither restriction is exercised by any claim.
* the two CLI command bodies as pure functions from an explicit input
  (directory listing, pattern table, hash ledger, timestamp) to a result,
  an event trace (backup / file write / warning / archive creation) and the
  final file contents.
-/

set_option maxHeartbeats 1000000
set_option maxRecDepth 4000

/-- A JSON value as handled by Python's `json` module (objects keep their
textual field order; duplicate keys can be written in text but `json.load`
collapses them, dict-style). Strings are lists of unicode scalars. -/
inductive Json where
  | null
  | bool (b : Bool)
  | num (n : Int)
  | str (s : List Char)
  | arr (xs : List Json)
  | obj (kvs : List (List Char × Json))
deriving Repr

mutual

/-- Structural boolean equality on `Json` (the nested `List` positions keep a
deriving handler from applying, so it is spelled out as a mutual recursion). -/
def Json.beq : Json → Json → Bool
  | .null, .null => true
  | .bool a, .bool b => a == b
  | .num a, .num b => a == b
  | .str a, .str b => a == b
  | .arr a, .arr b => Json.beqList a b
  | .obj a, .obj b => Json.beqKVs a b
  | _, _ => false

/-- Positionwise equality of value lists. -/
def Json.beqList : List Json → List Json → Bool
  | [], [] => true
  | x :: xs, y :: ys => Json.beq x y && Json.beqList xs ys
  | _, _ => false

/-- Positionwise equality of field lists. -/
def Json.beqKVs : List (List Char × Json) → List (List Char × Json) → Bool
  | [], [] => true
  | (k₁, v₁) :: xs, (k₂, v₂) :: ys => k₁ == k₂ && Json.beq v₁ v₂ && Json.beqKVs xs ys
  | _, _ => false

end

mutual

/-- The boolean comparison decides equality of JSON values. -/
theorem Json.beq_iff_eq : ∀ a b : Json, Json.beq a b = true ↔ a = b
  | .null, .null => by simp [Json.beq]
  | .bool _, .bool _ => by simp [Json.beq]
  | .num _, .num _ => by simp [Json.beq]
  | .str _, .str _ => by simp [Json.beq]
  | .arr x, .arr y => by simp [Json.beq, Json.beqList_iff_eq x y]
  | .obj x, .obj y => by simp [Json.beq, Json.beqKVs_iff_eq x y]
  | .null, .bool _ | .null, .num _ | .null, .str _ | .null, .arr _ | .null, .obj _
  | .bool _, .null | .bool _, .num _ | .bool _, .str _ | .bool _, .arr _ | .bool _, .obj _
  | .num _, .null | .num _, .bool _ | .num _, .str _ | .num _, .arr _ | .num _, .obj _
  | .str _, .null | .str _, .bool _ | .str _, .num _ | .str _, .arr _ | .str _, .obj _
  | .arr _, .null | .arr _, .bool _ | .arr _, .num _ | .arr _, .str _ | .arr _, .obj _
  | .obj _, .null | .obj _, .bool _ | .obj _, .num _ | .obj _, .str _ | .obj _, .arr _ => by
    simp [Json.beq]

/-- The boolean comparison decides equality of value lists. -/
theorem Json.beqList_iff_eq : ∀ xs ys : List Json, Json.beqList xs ys = true ↔ xs = ys
  | [], [] => by simp [Json.beqList]
  | x :: xs, y :: ys => by simp [Json.beqList, Json.beq_iff_eq x y, Json.beqList_iff_eq xs ys]
  | [], _ :: _ => by simp [Json.beqList]
  | _ :: _, [] => by simp [Json.beqList]

/-- The boolean comparison decides equality of field lists. -/
theorem Json.beqKVs_iff_eq :
    ∀ xs ys : List (List Char × Json), Json.beqKVs xs ys = true ↔ xs = ys
  | [], [] => by simp [Json.beqKVs]
  | (k₁, v₁) :: xs, (k₂, v₂) :: ys => by
    simp [Json.beqKVs, Json.beq_iff_eq v₁ v₂, Json.beqKVs_iff_eq xs ys, and_assoc]
  | [], _ :: _ => by simp [Json.beqKVs]
  | _ :: _, [] => by simp [Json.beqKVs]

end

instance : DecidableEq Json := fun a b => decidable_of_iff _ (Json.beq_iff_eq a b)

/-! ## Serialization: `json.dumps(value, sort_keys=True)`

Default separators (`", "` between items, `": "` after keys) and
`ensure_ascii=True` escaping, as used at `devtools.py:657`. -/

/-- Decimal digit character (`0`-`9`) for a value below ten. -/
def digitChar (n : Nat) : Char := Char.ofNat (48 + n)

/-- Lowercase hexadecimal digit character for a value below sixteen. -/
def hexDigitChar (n : Nat) : Char := if n < 10 then Char.ofNat (48 + n) else Char.ofNat (87 + n)

/-- Four lowercase hex digits, as in Python's `\uXXXX` escapes (`\u%04x`). -/
def hex4 (n : Nat) : List Char :=
  [hexDigitChar (n / 4096 % 16), hexDigitChar (n / 256 % 16),
   hexDigitChar (n / 16 % 16), hexDigitChar (n % 16)]

/-- Decimal digits of a natural number, most significant first; the first
argument is fuel (any value above the digit count gives the digits). -/
def natChars : Nat → Nat → List Char
  | 0, _ => []
  | f + 1, n => if n < 10 then [digitChar n] else natChars f (n / 10) ++ [digitChar (n % 10)]

/-- Decimal representation of an integer, as Python's `json.dumps` prints an `int`. -/
def intChars (n : Int) : List Char :=
  if n < 0 then '-' :: natChars (n.natAbs + 1) n.natAbs else natChars (n.toNat + 1) n.toNat

/-- The `ensure_ascii=True` escape of one character: `\"`, `\\`, the short
control escapes, printable ASCII verbatim, and `\uXXXX` otherwise (a surrogate
pair for characters beyond the basic plane). -/
def escChar (c : Char) : List Char :=
  if c = '"' then ['\\', '"']
  else if c = '\\' then ['\\', '\\']
  else if c = '\n' then ['\\', 'n']
  else if c = '\t' then ['\\', 't']
  else if c = '\r' then ['\\', 'r']
  else if c.toNat = 8 then ['\\', 'b']
  else if c.toNat = 12 then ['\\', 'f']
  else if 32 ≤ c.toNat ∧ c.toNat < 127 then [c]
  else if c.toNat < 65536 then '\\' :: 'u' :: hex4 c.toNat
  else '\\' :: 'u' :: hex4 (55296 + (c.toNat - 65536) / 1024) ++
       '\\' :: 'u' :: hex4 (56320 + (c.toNat - 65536) % 1024)

/-- Escape every character of a string body. -/
def escList : List Char → List Char
  | [] => []
  | c :: cs => escChar c ++ escList cs

/-- A serialized JSON string: quote, escaped body, quote. -/
def serStr (s : List Char) : List Char := '"' :: escList s ++ ['"']

mutual

/-- Order-preserving serialization of a JSON value with Python's default
separators: `json.dumps(v)` without key sorting. -/
def serialize : Json → List Char
  | .null => "null".toList
  | .bool true => "true".toList
  | .bool false => "false".toList
  | .num n => intChars n
  | .str s => serStr s
  | .arr [] => "[]".toList
  | .arr (x :: xs) => '[' :: serialize x ++ serArrTail xs ++ [']']
  | .obj [] => ['{', '}']
  | .obj (p :: kvs) =>
      '{' :: serStr p.1 ++ ':' :: ' ' :: serialize p.2 ++ serObjTail kvs ++ ['}']

/-- Remaining array items, each preceded by `", "`. -/
def serArrTail : List Json → List Char
  | [] => []
  | x :: xs => ',' :: ' ' :: serialize x ++ serArrTail xs

/-- Remaining object members, each preceded by `", "`. -/
def serObjTail : List (List Char × Json) → List Char
  | [] => []
  | p :: kvs => ',' :: ' ' :: serStr p.1 ++ ':' :: ' ' :: serialize p.2 ++ serObjTail kvs

end

/-! ## Key ordering and recursive key sort

Python's `sort_keys=True` sorts each object's items by key with `sorted`,
i.e. stably, by code-point lexicographic string comparison. -/

/-- Code-point lexicographic strict comparison of strings (Python `str` `<`). -/
def keyLt : List Char → List Char → Bool
  | [], [] => false
  | [], _ :: _ => true
  | _ :: _, [] => false
  | a :: as, b :: bs =>
      if a.toNat < b.toNat then true
      else if b.toNat < a.toNat then false
      else keyLt as bs

/-- Stable insertion of a pair into a key-sorted list: the pair goes before
any pair whose key is not smaller (so equal keys keep their original order,
matching Python's stable `sorted`). -/
def insKV (p : List Char × Json) : List (List Char × Json) → List (List Char × Json)
  | [] => [p]
  | q :: qs => if keyLt q.1 p.1 then q :: insKV p qs else p :: q :: qs

/-- Stable insertion sort of object members by key. -/
def sortKVs : List (List Char × Json) → List (List Char × Json)
  | [] => []
  | p :: ps => insKV p (sortKVs ps)

mutual

/-- Recursively sort every object's members by key, leaving everything else
as written: the value-level effect of `sort_keys=True`. -/
def deepSort : Json → Json
  | .null => .null
  | .bool b => .bool b
  | .num n => .num n
  | .str s => .str s
  | .arr xs => .arr (deepSortList xs)
  | .obj kvs => .obj (sortKVs (deepSortKVs kvs))

/-- `deepSort` on each array element. -/
def deepSortList : List Json → List Json
  | [] => []
  | x :: xs => deepSort x :: deepSortList xs

/-- `deepSort` on each member value. -/
def deepSortKVs : List (List Char × Json) → List (List Char × Json)
  | [] => []
  | (k, v) :: kvs => (k, deepSort v) :: deepSortKVs kvs

end

/-- Canonical bytes of a parsed value: exactly
`json.dumps(value, sort_keys=True)` (`devtools.py:657`). -/
def dumpsSorted (v : Json) : List Char := serialize (deepSort v)

/-- No list of members mentions a key twice. -/
def keysNodup : List (List Char × Json) → Bool
  | [] => true
  | (k, _) :: kvs => !(kvs.any (fun q => q.1 = k)) && keysNodup kvs

mutual

/-- Every object inside the value has pairwise distinct keys — the invariant
of everything `json.load` can return (Python dicts cannot repeat a key). -/
def noDupKeys : Json → Bool
  | .null => true
  | .bool _ => true
  | .num _ => true
  | .str _ => true
  | .arr xs => noDupKeysList xs
  | .obj kvs => keysNodup kvs && noDupKeysKVs kvs

/-- `noDupKeys` on each array element. -/
def noDupKeysList : List Json → Bool
  | [] => true
  | x :: xs => noDupKeys x && noDupKeysList xs

/-- `noDupKeys` on each member value. -/
def noDupKeysKVs : List (List Char × Json) → Bool
  | [] => true
  | (_, v) :: kvs => noDupKeys v && noDupKeysKVs kvs

end

/-! ## Parsing: `json.load`

A fuel-indexed recursive-descent parser for the JSON read by `json.load`
(strict mode): optional whitespace between tokens, no control characters
inside strings, no leading zeros in numbers, objects built dict-style
(duplicate keys collapse, last value wins, first position kept). -/

/-- JSON whitespace (space, tab, newline, carriage return). -/
def isWsChar (c : Char) : Bool := c = ' ' || c = '\t' || c = '\n' || c = '\r'

/-- Drop leading whitespace. -/
def skipWs : List Char → List Char
  | [] => []
  | c :: cs => if isWsChar c then skipWs cs else c :: cs

/-- ASCII decimal digit test. -/
def isDigitChar (c : Char) : Bool := 48 ≤ c.toNat && c.toNat ≤ 57

/-- Value of a string of decimal digits, most significant first. -/
def digitsVal (ds : List Char) : Nat := ds.foldl (fun a c => a * 10 + (c.toNat - 48)) 0

/-- Value of one hexadecimal digit character (either case), if it is one. -/
def decodeHexDigit (c : Char) : Option Nat :=
  if 48 ≤ c.toNat ∧ c.toNat ≤ 57 then some (c.toNat - 48)
  else if 97 ≤ c.toNat ∧ c.toNat ≤ 102 then some (c.toNat - 87)
  else if 65 ≤ c.toNat ∧ c.toNat ≤ 70 then some (c.toNat - 55)
  else none

/-- Decoded character of a single-character escape (`\"`, `\\`, `\/`, `\b`,
`\f`, `\n`, `\r`, `\t`). -/
def escDecode : Char → Option Char
  | '"' => some '"'
  | '\\' => some '\\'
  | '/' => some '/'
  | 'b' => some (Char.ofNat 8)
  | 'f' => some (Char.ofNat 12)
  | 'n' => some '\n'
  | 'r' => some '\r'
  | 't' => some '\t'
  | _ => none

/-- Value of four hex digit characters, most significant first. -/
def decodeHex4n (h1 h2 h3 h4 : Char) : Option Nat :=
  match decodeHexDigit h1, decodeHexDigit h2, decodeHexDigit h3, decodeHexDigit h4 with
  | some d1, some d2, some d3, some d4 => some (((d1 * 16 + d2) * 16 + d3) * 16 + d4)
  | _, _, _, _ => none

mutual

/-- Parse a string body after the opening quote, returning the decoded
characters and the input following the closing quote.  Raw control characters
are rejected (strict mode). -/
def parseStrBody : List Char → Option (List Char × List Char)
  | [] => none
  | c :: cs =>
    if c = '"' then some ([], cs)
    else if c = '\\' then parseEsc cs
    else if c.toNat < 32 then none
    else (parseStrBody cs).map (fun p => (c :: p.1, p.2))

/-- Parse what follows a backslash inside a string body. -/
def parseEsc : List Char → Option (List Char × List Char)
  | [] => none
  | e :: cs' =>
    if e = 'u' then parseHexEsc cs'
    else
      match escDecode e with
      | some d => (parseStrBody cs').map (fun p => (d :: p.1, p.2))
      | none => none

/-- Parse what follows `\u` inside a string body: four hex digits, a code
point taken verbatim unless it is a surrogate — a high surrogate must be
followed by a low-surrogate escape to recombine, a lone surrogate escape is
rejected (it has no `Char`). -/
def parseHexEsc : List Char → Option (List Char × List Char)
  | h1 :: h2 :: h3 :: h4 :: cs2 =>
    match decodeHex4n h1 h2 h3 h4 with
    | some n =>
      if 55296 ≤ n ∧ n ≤ 56319 then parseLowSurrogate n cs2
      else if 56320 ≤ n ∧ n ≤ 57343 then none
      else (parseStrBody cs2).map (fun p => (Char.ofNat n :: p.1, p.2))
    | none => none
  | _ => none

/-- Parse the `\uXXXX` low-surrogate escape that must follow a high
surrogate, and recombine the pair into one character. -/
def parseLowSurrogate (n : Nat) : List Char → Option (List Char × List Char)
  | b :: u :: k1 :: k2 :: k3 :: k4 :: cs3 =>
    if b = '\\' ∧ u = 'u' then
      match decodeHex4n k1 k2 k3 k4 with
      | some m =>
        if 56320 ≤ m ∧ m ≤ 57343 then
          (parseStrBody cs3).map
            (fun p => (Char.ofNat (65536 + (n - 55296) * 1024 + (m - 56320)) :: p.1, p.2))
        else none
      | none => none
    else none
  | _ => none

end

/-- Parse an unsigned integer literal: a nonempty digit run with no leading
zero, not followed by a fraction or exponent (floats are outside the model). -/
def parseUInt (s : List Char) : Option (Nat × List Char) :=
  let ds := s.takeWhile isDigitChar
  let rest := s.drop ds.length
  if ds = [] then none
  else if 1 < ds.length ∧ ds.head? = some '0' then none
  else
    match rest with
    | c :: _ => if c = '.' ∨ c = 'e' ∨ c = 'E' then none else some (digitsVal ds, rest)
    | [] => some (digitsVal ds, [])

/-- Parse an integer literal with optional leading minus sign. -/
def parseIntFrom (s : List Char) : Option (Int × List Char) :=
  match s with
  | '-' :: rest => (parseUInt rest).map (fun p => (-(p.1 : Int), p.2))
  | _ => (parseUInt s).map (fun p => ((p.1 : Int), p.2))

/-- Update a dict under construction: an existing key keeps its position and
takes the new value, a new key is appended (Python `dict` assignment). -/
def dictInsert (d : List (List Char × Json)) (k : List Char) (v : Json) :
    List (List Char × Json) :=
  if d.any (fun p => p.1 = k) then d.map (fun p => if p.1 = k then (k, v) else p)
  else d ++ [(k, v)]

mutual

/-- Parse one JSON value after optional whitespace, returning it and the rest
of the input.  The fuel only bounds recursion depth; `parseTop` supplies more
than any parse can consume. -/
def parseVal : Nat → List Char → Option (Json × List Char)
  | 0, _ => none
  | fuel + 1, s =>
    match skipWs s with
    | [] => none
    | c :: cs =>
      if c = 'n' then
        match cs with
        | 'u' :: 'l' :: 'l' :: r => some (.null, r)
        | _ => none
      else if c = 't' then
        match cs with
        | 'r' :: 'u' :: 'e' :: r => some (.bool true, r)
        | _ => none
      else if c = 'f' then
        match cs with
        | 'a' :: 'l' :: 's' :: 'e' :: r => some (.bool false, r)
        | _ => none
      else if c = '"' then (parseStrBody cs).map (fun p => (.str p.1, p.2))
      else if c = '[' then
        match skipWs cs with
        | ']' :: r => some (.arr [], r)
        | _ => (parseElems fuel cs).map (fun p => (.arr p.1, p.2))
      else if c = '{' then
        match skipWs cs with
        | '}' :: r => some (.obj [], r)
        | _ => (parseMembers fuel cs []).map (fun p => (.obj p.1, p.2))
      else if c = '-' ∨ isDigitChar c then
        (parseIntFrom (c :: cs)).map (fun p => (.num p.1, p.2))
      else none

/-- Parse the elements of a nonempty array up to and past the closing `]`. -/
def parseElems : Nat → List Char → Option (List Json × List Char)
  | 0, _ => none
  | fuel + 1, s =>
    match parseVal fuel s with
    | none => none
    | some (v, r) =>
      match skipWs r with
      | ']' :: r' => some ([v], r')
      | ',' :: r' =>
        match parseElems fuel r' with
        | none => none
        | some (vs, r'') => some (v :: vs, r'')
      | _ => none

/-- Parse the members of a nonempty object up to and past the closing brace,
accumulating them dict-style into `acc`. -/
def parseMembers : Nat → List Char → List (List Char × Json) →
    Option (List (List Char × Json) × List Char)
  | 0, _, _ => none
  | fuel + 1, s, acc =>
    match skipWs s with
    | '"' :: cs =>
      match parseStrBody cs with
      | none => none
      | some (k, r) =>
        match skipWs r with
        | ':' :: r' =>
          match parseVal fuel r' with
          | none => none
          | some (v, r'') =>
            match skipWs r'' with
            | '}' :: r3 => some (dictInsert acc k v, r3)
            | ',' :: r3 => parseMembers fuel r3 (dictInsert acc k v)
            | _ => none
        | _ => none
    | _ => none

end

/-- Parse a complete JSON document as `json.load` does: one value, then
optional whitespace, then end of input. -/
def parseTop (s : List Char) : Option Json :=
  match parseVal (2 * s.length + 2) s with
  | some (v, r) => if skipWs r = [] then some v else none
  | none => none

/-- Canonicalization of raw text, as performed per file at `devtools.py:657`:
parse, then re-serialize with sorted keys and the default separators.  `none`
when the text is not valid JSON. -/
def canon (s : List Char) : Option (List Char) := (parseTop s).map dumpsSorted

/-- A parser-friendly continuation: the first character after a serialized
number must not extend it (no digit, `.`, `e` or `E`), which holds at every
position where `serialize` emits a number. -/
def numDelimOk : List Char → Bool
  | [] => true
  | c :: _ => !(isDigitChar c) && c ≠ '.' && c ≠ 'e' && c ≠ 'E'

mutual

/-- Fuel needed by `parseVal` to parse a value (one unit per `parseVal` /
`parseElems` / `parseMembers` activation along the deepest chain). -/
def jweight : Json → Nat
  | .null => 1
  | .bool _ => 1
  | .num _ => 1
  | .str _ => 1
  | .arr xs => 1 + jweightList xs + xs.length
  | .obj kvs => 1 + jweightKVs kvs + kvs.length

/-- Sum of element weights. -/
def jweightList : List Json → Nat
  | [] => 0
  | x :: xs => jweight x + jweightList xs

/-- Sum of member-value weights. -/
def jweightKVs : List (List Char × Json) → Nat
  | [] => 0
  | p :: kvs => jweight p.2 + jweightKVs kvs

end

/-- The weak order "not greater" on members, used to relate `insKV` to
Mathlib's insertion sort. -/
@[reducible] def kvr (p q : List Char × Json) : Prop := keyLt q.1 p.1 = false


/-! ## Hashing: `hashlib.sha256(text.encode("utf-8")).hexdigest()`

The digest used at `devtools.py:658` and `devtools.py:679`. -/

/-- UTF-8 bytes of one unicode scalar. -/
def utf8Char (c : Char) : List Nat :=
  let n := c.toNat
  if n < 128 then [n]
  else if n < 2048 then [192 + n / 64, 128 + n % 64]
  else if n < 65536 then [224 + n / 4096, 128 + n / 64 % 64, 128 + n % 64]
  else [240 + n / 262144, 128 + n / 4096 % 64, 128 + n / 64 % 64, 128 + n % 64]

/-- UTF-8 encoding of a string (Python `str.encode("utf-8")`). -/
def utf8Encode : List Char → List Nat
  | [] => []
  | c :: cs => utf8Char c ++ utf8Encode cs

/-- Right rotation of a 32-bit word. -/
def rotr32 (r x : Nat) : Nat := ((x >>> r) ||| (x <<< (32 - r))) % 4294967296

/-- Bitwise exclusive or of three words. -/
def xor3 (a b c : Nat) : Nat := (a ^^^ b) ^^^ c

/-- The SHA-256 round constants. -/
def sha256K : List Nat :=
  [1116352408, 1899447441, 3049323471, 3921009573, 961987163, 1508970993, 2453635748, 2870763221,
   3624381080, 310598401, 607225278, 1426881987, 1925078388, 2162078206, 2614888103, 3248222580,
   3835390401, 4022224774, 264347078, 604807628, 770255983, 1249150122, 1555081692, 1996064986,
   2554220882, 2821834349, 2952996808, 3210313671, 3336571891, 3584528711, 113926993, 338241895,
   666307205, 773529912, 1294757372, 1396182291, 1695183700, 1986661051, 2177026350, 2456956037,
   2730485921, 2820302411, 3259730800, 3345764771, 3516065817, 3600352804, 4094571909, 275423344,
   430227734, 506948616, 659060556, 883997877, 958139571, 1322822218, 1537002063, 1747873779,
   1955562222, 2024104815, 2227730452, 2361852424, 2428436474, 2756734187, 3204031479, 3329325298]

/-- Big-endian bytes of a 64-bit length value. -/
def be64 (n : Nat) : List Nat :=
  [n / 72057594037927936 % 256, n / 281474976710656 % 256, n / 1099511627776 % 256,
   n / 4294967296 % 256, n / 16777216 % 256, n / 65536 % 256, n / 256 % 256, n % 256]

/-- SHA-256 message padding: a `0x80` byte, zeros to 56 mod 64, then the
bit length, big endian, in eight bytes. -/
def sha256Pad (msg : List Nat) : List Nat :=
  msg ++ 0x80 :: List.replicate ((119 - msg.length % 64) % 64) 0 ++ be64 (8 * msg.length)

/-- Split a byte list into chunks of a given size (fuel-driven). -/
def chunksAux (sz : Nat) : Nat → List Nat → List (List Nat)
  | 0, _ => []
  | _, [] => []
  | f + 1, bs => bs.take sz :: chunksAux sz f (bs.drop sz)

/-- All 64-byte blocks of a padded message. -/
def blocks64 (bs : List Nat) : List (List Nat) := chunksAux 64 bs.length bs

/-- The sixteen big-endian 32-bit words of one 64-byte block. -/
def blockWords (b : List Nat) : List Nat :=
  (chunksAux 4 b.length b).map
    (fun w => ((w.getD 0 0 * 256 + w.getD 1 0) * 256 + w.getD 2 0) * 256 + w.getD 3 0)

/-- One step of the message-schedule extension. -/
def schedStep (ws : List Nat) : List Nat :=
  let l := ws.length
  let w15 := ws.getD (l - 15) 0
  let w2 := ws.getD (l - 2) 0
  let s0 := xor3 (rotr32 7 w15) (rotr32 18 w15) (w15 >>> 3)
  let s1 := xor3 (rotr32 17 w2) (rotr32 19 w2) (w2 >>> 10)
  ws ++ [(ws.getD (l - 16) 0 + s0 + ws.getD (l - 7) 0 + s1) % 4294967296]

/-- Extend sixteen schedule words to sixty-four. -/
def sha256Sched : Nat → List Nat → List Nat
  | 0, ws => ws
  | f + 1, ws => sha256Sched f (schedStep ws)

/-- The working state of the compression function. -/
structure Sha256St where
  a : Nat
  b : Nat
  c : Nat
  d : Nat
  e : Nat
  f : Nat
  g : Nat
  h : Nat
deriving Repr

/-- One compression round. -/
def sha256Round (st : Sha256St) (kw : Nat) : Sha256St :=
  let s1 := xor3 (rotr32 6 st.e) (rotr32 11 st.e) (rotr32 25 st.e)
  let ch := (st.e &&& st.f) ^^^ ((0xffffffff - st.e) &&& st.g)
  let t1 := (st.h + s1 + ch + kw) % 4294967296
  let s0 := xor3 (rotr32 2 st.a) (rotr32 13 st.a) (rotr32 22 st.a)
  let mj := xor3 (st.a &&& st.b) (st.a &&& st.c) (st.b &&& st.c)
  let t2 := (s0 + mj) % 4294967296
  ⟨(t1 + t2) % 4294967296, st.a, st.b, st.c, (st.d + t1) % 4294967296, st.e, st.f, st.g⟩

/-- Process one 64-byte block from a given hash state. -/
def sha256Block (hs : List Nat) (b : List Nat) : List Nat :=
  let ws := sha256Sched 48 (blockWords b)
  let kw := sha256K.zipWith (fun k w => (k + w) % 4294967296) ws
  let st0 : Sha256St :=
    ⟨hs.getD 0 0, hs.getD 1 0, hs.getD 2 0, hs.getD 3 0,
     hs.getD 4 0, hs.getD 5 0, hs.getD 6 0, hs.getD 7 0⟩
  let st := kw.foldl sha256Round st0
  [(hs.getD 0 0 + st.a) % 4294967296, (hs.getD 1 0 + st.b) % 4294967296,
   (hs.getD 2 0 + st.c) % 4294967296, (hs.getD 3 0 + st.d) % 4294967296,
   (hs.getD 4 0 + st.e) % 4294967296, (hs.getD 5 0 + st.f) % 4294967296,
   (hs.getD 6 0 + st.g) % 4294967296, (hs.getD 7 0 + st.h) % 4294967296]

/-- The SHA-256 digest (eight 32-bit words) of a byte string. -/
def sha256Words (msg : List Nat) : List Nat :=
  (blocks64 (sha256Pad msg)).foldl sha256Block
    [0x6a09e667, 0xbb67ae85, 0x3c6ef372, 0xa54ff53a, 0x510e527f, 0x9b05688c, 0x1f83d9ab,
     0x5be0cd19]

/-- Lowercase hex spelling of one 32-bit word. -/
def wordHex (w : Nat) : List Char :=
  [hexDigitChar (w / 268435456 % 16), hexDigitChar (w / 16777216 % 16),
   hexDigitChar (w / 1048576 % 16), hexDigitChar (w / 65536 % 16),
   hexDigitChar (w / 4096 % 16), hexDigitChar (w / 256 % 16),
   hexDigitChar (w / 16 % 16), hexDigitChar (w % 16)]

/-- The hex digest of a byte string: `hashlib.sha256(bytes).hexdigest()`. -/
def sha256hex (msg : List Nat) : String :=
  String.mk (((sha256Words msg).map wordHex).flatten)

/-! ## Python helper semantics used by the two commands -/

/-- An `fnmatch`-style glob matcher for the role filename patterns: `*` matches
any run of characters, `?` one character, anything else itself (the patterns in
use contain only `*` and literals).  Fuel-driven; the fuel in `globMatch`
exceeds any possible recursion depth. -/
def globMatchAux : Nat → List Char → List Char → Bool
  | 0, _, _ => false
  | f + 1, p, n =>
    match p, n with
    | [], [] => true
    | '*' :: ps, ns =>
        globMatchAux f ps ns ||
          (match ns with
           | [] => false
           | _ :: ns' => globMatchAux f ('*' :: ps) ns')
    | '?' :: ps, _ :: ns => globMatchAux f ps ns
    | c :: ps, d :: ns => c = d && globMatchAux f ps ns
    | _, _ => false

/-- Whether a filename matches a glob pattern (`Path(directory).glob(pattern)`
membership for plain names). -/
def globMatch (pat name : String) : Bool :=
  globMatchAux (pat.length + name.length + 1) pat.toList name.toList

/-- Python `str.rsplit(c, maxsplit=1)` unpacked into two parts: `some` of the
text before and after the last occurrence of `c`, or `none` when `c` does not
occur (where Python's two-variable unpacking raises `ValueError`). -/
def pyRsplitOnce : List Char → Char → Option (List Char × List Char)
  | [], _ => none
  | x :: xs, c =>
    match pyRsplitOnce xs c with
    | some (pre, suf) => some (x :: pre, suf)
    | none => if x = c then some ([], xs) else none

/-- Python `pathlib.Path(name).suffix`: the text from the last dot on, provided
the dot is neither the first nor the last character. -/
def pySuffix (name : String) : String :=
  match pyRsplitOnce name.toList '.' with
  | some (pre, suf) => if pre ≠ [] ∧ suf ≠ [] then String.mk ('.' :: suf) else ""
  | none => ""

/-- ASCII lowering of one character (the filenames compared by the code are
ASCII; Python `str.lower` agrees with this on them). -/
def lowerChar (c : Char) : Char :=
  if 65 ≤ c.toNat ∧ c.toNat ≤ 90 then Char.ofNat (c.toNat + 32) else c

/-- Python `str.lower` on an ASCII name. -/
def pyLower (s : String) : String := String.mk (s.toList.map lowerChar)

/-- Python `now.replace(":", "-")` as applied to the timestamp at
`devtools.py:641`. -/
def replaceColons (s : String) : String :=
  String.mk (s.toList.map (fun c => if c = ':' then '-' else c))

/-- Python truthiness of a JSON value (`assert j.get(...)`): `None`, `False`,
`0`, empty string, empty list and empty dict are falsy. -/
def pyTruthy : Json → Bool
  | .null => false
  | .bool b => b
  | .num n => n ≠ 0
  | .str s => s ≠ []
  | .arr xs => xs ≠ []
  | .obj kvs => kvs ≠ []

/-- Python `dict.get` on a parsed JSON object. -/
def jget (kvs : List (List Char × Json)) (k : String) : Option Json :=
  List.lookup k.toList kvs

/-- Truthiness of `j.get(field)`: a missing field is `None`, hence falsy. -/
def truthyField (kvs : List (List Char × Json)) (k : String) : Bool :=
  match jget kvs k with
  | none => false
  | some v => pyTruthy v

/-! ## The two command bodies as pure functions

Outcomes of a run.  `client` is `client_error` from `detection_rules/misc.py`
(not under `src/`): modelled from the spec, which says every such error is
fatal to the invocation and carries a descriptive message.  `crash` is an
unhandled Python exception (`ValueError`, `AssertionError`, `AttributeError`,
`KeyError`), which likewise aborts the invocation. -/
inductive VError where
  | client (msg : String)
  | crash (msg : String)
deriving DecidableEq, Repr

/-- Observable filesystem effects of a run, in order: directory backup
(`shutil.copytree`), file rewrite (`open(..., "w")`), warning output
(`click.secho(..., fg="yellow")`), archive creation (`shutil.make_archive`). -/
inductive Event where
  | backup (path : String)
  | write (file : String) (content : List Char)
  | warn (msg : String)
  | zip (path : String)
deriving DecidableEq, Repr

/-- The contents of the bundle directory: file name to file text. -/
abbrev FS := List (String × List Char)

/-- Overwrite the named file's content. -/
def fsWrite (fs : FS) (name : String) (content : List Char) : FS :=
  fs.map (fun f => if f.1 = name then (f.1, content) else f)

/-- The outcome of a command run: result (archive name and release description,
or the error), event trace, and final directory contents. -/
structure RunOut where
  result : Except VError (String × String)
  trace : List Event
  fs : FS
deriving Repr

/-- The `loaded_contents` mapping: role name to canonical content and matched
file name. -/
abbrev Loaded := List (String × (List Char × String))

/-- Input to `validate_ml_dga_asset`.  `patterns` stands for
`expected_ml_dga_patterns` (defined in `detection_rules/eswrap.py`, not under
`src/`): modelled from the spec as an explicit role-to-pattern table supplied
by the caller.  `ledger` stands for the result of
`Manifest.get_existing_asset_hashes(repo)` (`detection_rules/misc.py`, not
under `src/`): modelled from the spec as a mapping from release name to pairs
of file name and hex content hash.  `now` is the formatted timestamp taken at
entry. -/
structure DgaInput where
  dirName : String
  files : FS
  patterns : List (String × String)
  ledger : List (String × List (String × String))
  now : String

/-- The enumeration error message of `devtools.py:650`. -/
def enumErrMsg (pat name : String) (cnt : Nat) : String :=
  "Expected filename pattern \"" ++ pat ++ "\" for \"" ++ name ++ "\": " ++
    toString cnt ++ " matches detected"

/-- The parse error message of `devtools.py:665` (the file is identified by
its name; the Python message spells it as a path inside the directory). -/
def parseErrMsg (fname : String) : String := "Invalid JSON in " ++ fname ++ " file"

/-- The files of the directory matching a role's pattern. -/
def matchesOf (fs : FS) (pat : String) : FS := fs.filter (fun f => globMatch pat f.1)

/-- The per-role loop of `validate_ml_dga_asset` (`devtools.py:645-665`): for
each role in table order, require exactly one matching file, parse it, record
and re-save its canonical serialization.  Returns the write events, the
directory contents after the loop, and the loaded roles or the first error. -/
def dgaLoop : List (String × String) → FS → List Event × FS × Except VError Loaded
  | [], fs => ([], fs, .ok [])
  | (name, pat) :: rest, fs =>
    match matchesOf fs pat with
    | [(fname, content)] =>
      (match parseTop content with
       | none => ([], fs, .error (.client (parseErrMsg fname)))
       | some v =>
         let canonText := dumpsSorted v
         let step := dgaLoop rest (fsWrite fs fname canonText)
         (Event.write fname canonText :: step.1, step.2.1,
          step.2.2.map (fun l => (name, (canonText, fname)) :: l)))
    | ms => ([], fs, .error (.client (enumErrMsg pat name ms.length)))

/-- The backup directory name of `devtools.py:641`. -/
def backupName (dirName now : String) : String :=
  "backups-" ++ dirName ++ "-" ++ replaceColons now

/-- The hash-match warning of `devtools.py:686-687`. -/
def hashWarnMsg (mf rel fn sha : String) : String :=
  "[!] hash for model file: \"" ++ mf ++ "\" matches: " ++ rel ++ " -> " ++ fn ++ " -> " ++ sha

/-- The name-collision error of `devtools.py:691-692`. -/
def nameErrMsg (mf rel fn : String) : String :=
  "name for model file: \"" ++ mf ++ "\" matches: " ++ rel ++ " -> " ++ fn ++ " -> " ++ fn

/-- The inner loop of the ledger cross-check (`devtools.py:683-692`) over one
release's file entries: warn on a hash match, fail on a file-name match; the
hash check of an entry runs before its name check. -/
def entryCheck (rel : String) (mh mf : String) :
    List (String × String) → List Event × Except VError Unit
  | [] => ([], .ok ())
  | (fn, sha) :: rest =>
    let warns := if mh = sha then [Event.warn (hashWarnMsg mf rel fn sha)] else []
    if mf = fn then (warns, .error (.client (nameErrMsg mf rel fn)))
    else
      let step := entryCheck rel mh mf rest
      (warns ++ step.1, step.2)

/-- The ledger cross-check over all releases (`devtools.py:683-692`). -/
def ledgerCheck (mh mf : String) :
    List (String × List (String × String)) → List Event × Except VError Unit
  | [] => ([], .ok ())
  | (rel, fd) :: rest =>
    match entryCheck rel mh mf fd with
    | (tr, .error e) => (tr, .error e)
    | (tr, .ok _) =>
      let step := ledgerCheck mh mf rest
      (tr ++ step.1, step.2)

/-- The release description of `devtools.py:710-716`. -/
def dgaDescription (mn now mh : String) : String :=
  "model_name: " ++ mn ++ "\n\n----\n\n" ++ "\n" ++ "date: " ++ now ++ "\n" ++
    "model_sha256: " ++ mh ++ "\n" ++
    "For details reference: https://github.com/elastic/detection-rules/blob/main/docs/ML_DGA.md"

/-- The tail of `validate_ml_dga_asset` from the ledger cross-check on
(`devtools.py:676-721`): run the cross-check, then create the archive and the
release description. -/
def dgaFinish (inp : DgaInput) (tr : List Event) (fs' : FS) (mc : List Char) (mf : String)
    (mn : List Char) : RunOut :=
  let bk := Event.backup (backupName inp.dirName inp.now)
  let mh := sha256hex (utf8Encode mc)
  match ledgerCheck mh mf inp.ledger with
  | (ltr, .error e) => ⟨.error e, bk :: tr ++ ltr, fs'⟩
  | (ltr, .ok _) =>
    ⟨.ok (inp.dirName ++ ".zip", dgaDescription (String.mk mn) inp.now mh),
     bk :: tr ++ ltr ++ [Event.zip (inp.dirName ++ ".zip")], fs'⟩

/-- The model-identity stage of `validate_ml_dga_asset` (`devtools.py:667-668`):
look up the loaded `model` role (a missing role is Python's `KeyError`) and
split its filename at the last underscore (no underscore is the `ValueError`
of unpacking a one-element `rsplit` result into two variables). -/
def dgaModelStage (inp : DgaInput) (tr : List Event) (fs' : FS) (loaded : Loaded) : RunOut :=
  let bk := Event.backup (backupName inp.dirName inp.now)
  match List.lookup "model" loaded with
  | none => ⟨.error (.crash "KeyError: model"), bk :: tr, fs'⟩
  | some (mc, mf) =>
    match pyRsplitOnce mf.toList '_' with
    | none =>
      ⟨.error (.crash "ValueError: not enough values to unpack (expected 2, got 1)"),
       bk :: tr, fs'⟩
    | some (mn, _) => dgaFinish inp tr fs' mc mf mn

/-- The body of the `validate-ml-dga-asset` command (`devtools.py:626-721`):
file-count check, directory backup, per-role canonicalization loop, model-name
derivation, ledger cross-check, archive creation. -/
def validate_ml_dga_asset (inp : DgaInput) : RunOut :=
  if 5 < inp.files.length then
    ⟨.error (.client "Too many files, expected 5"), [], inp.files⟩
  else
    match dgaLoop inp.patterns inp.files with
    | (tr, fs', .error e) =>
      ⟨.error e, Event.backup (backupName inp.dirName inp.now) :: tr, fs'⟩
    | (tr, fs', .ok loaded) => dgaModelStage inp tr fs' loaded

/-- Input to `validate_ml_detections_asset`.  `tomlOk` stands for the external
`pytoml.load` well-formedness check (a third-party library): modelled from the
spec as a predicate on rule-file text supplied with the input. -/
structure DetInput where
  dirName : String
  files : FS
  tomlOk : List Char → Bool
  now : String

/-- The job-file schema failure message of `devtools.py:745-747` (without the
terminal color codes `click.style` wraps around it). -/
def missingMsg (job fld : String) : String :=
  "[!] job file \"" ++ job ++ "\" missing: " ++ fld

/-- The per-job-file loop of `devtools.py:741-749`: parse each `.json` file
and assert the truthiness of `name`, `type` and `body` in that order.  A parse
failure is a `client_error`; a failed `assert` is an uncaught
`AssertionError` whose message names the file and field; `j.get` on a
non-object is an uncaught `AttributeError`. -/
def jobsCheck : FS → Except VError Unit
  | [] => .ok ()
  | (name, content) :: rest =>
    match parseTop content with
    | none => .error (.client (parseErrMsg name))
    | some (.obj kvs) =>
      if ¬ truthyField kvs "name" then .error (.crash (missingMsg name "name"))
      else if ¬ truthyField kvs "type" then .error (.crash (missingMsg name "type"))
      else if ¬ truthyField kvs "body" then .error (.crash (missingMsg name "body"))
      else jobsCheck rest
    | some _ => .error (.crash ("AttributeError: " ++ name))

/-- The per-rule-file loop of `devtools.py:755-760`. -/
def rulesCheck (tomlOk : List Char → Bool) : FS → Except VError Unit
  | [] => .ok ()
  | (name, content) :: rest =>
    if tomlOk content then rulesCheck tomlOk rest
    else .error (.client ("[!] invalid rule toml for: " ++ name))

/-- The `.json` job files of a detections bundle (`devtools.py:731`). -/
def jobFiles (fs : FS) : FS := fs.filter (fun f => pySuffix f.1 = ".json")

/-- The `.toml` rule files of a detections bundle (`devtools.py:732`). -/
def ruleFiles (fs : FS) : FS := fs.filter (fun f => pySuffix f.1 = ".toml")

/-- The remaining files of a detections bundle (`devtools.py:733`). -/
def otherFiles (fs : FS) : FS :=
  fs.filter (fun f => pySuffix f.1 ≠ ".toml" ∧ pySuffix f.1 ≠ ".json")

/-- The release description of `devtools.py:771-778`. -/
def detDescription (ruleCnt jobCnt otherCnt : Nat) (now : String) : String :=
  "Experimental rules: " ++ toString ruleCnt ++ "\n" ++
    "Experimental ML jobs: " ++ toString jobCnt ++ "\n" ++
    "Other files: " ++ toString otherCnt ++ "\n\n----\n\n" ++ "\n" ++
    "DGA release: <add link to DGA release these detections were built on>" ++ "\n" ++
    "date: " ++ now ++ "\n" ++
    "For details reference: https://github.com/elastic/detection-rules/blob/main/docs/ML_DGA.md"

/-- The body of the `validate-ml-detections-asset` command
(`devtools.py:724-786`): partition by extension, require a `readme.md` file
(case-insensitively) among the other files, validate job files, validate rule
files, create the archive. -/
def validate_ml_detections_asset (inp : DetInput) : RunOut :=
  let jobs := jobFiles inp.files
  let rules := ruleFiles inp.files
  let others := otherFiles inp.files
  if ¬ others.any (fun f => pyLower f.1 = "readme.md") then
    ⟨.error (.client "Release is missing readme file"), [], inp.files⟩
  else
    match jobsCheck jobs with
    | .error e => ⟨.error e, [], inp.files⟩
    | .ok _ =>
      match rulesCheck inp.tomlOk rules with
      | .error e => ⟨.error e, [], inp.files⟩
      | .ok _ =>
        ⟨.ok (inp.dirName ++ ".zip",
              detDescription rules.length jobs.length others.length inp.now),
         [Event.zip (inp.dirName ++ ".zip")], inp.files⟩

/-- Whether an event is a file rewrite. -/
def isWriteEv : Event → Bool
  | .write _ _ => true
  | _ => false

/-- Whether an event is a warning. -/
def isWarnEv : Event → Bool
  | .warn _ => true
  | _ => false

/-- Whether an event is a directory backup. -/
def isBackupEv : Event → Bool
  | .backup _ => true
  | _ => false

/-- Whether an event is an archive creation. -/
def isZipEv : Event → Bool
  | .zip _ => true
  | _ => false

/-! ## Supporting lemmas about the run functions -/

theorem dgaLoop_trace_writes : ∀ (ps : List (String × String)) (fs : FS),
    ∀ e ∈ (dgaLoop ps fs).1, isWriteEv e = true := by
  intro ps
  induction ps with
  | nil => intro fs e he; simp [dgaLoop] at he
  | cons p rest ih =>
    intro fs e he
    obtain ⟨name, pat⟩ := p
    rw [dgaLoop] at he
    split at he
    · split at he
      · simp at he
      · simp at he
        rcases he with rfl | he
        · rfl
        · exact ih _ e he
    · simp at he

theorem entryCheck_trace_warns : ∀ (fd : List (String × String)) (rel mh mf : String),
    ∀ e ∈ (entryCheck rel mh mf fd).1, isWarnEv e = true := by
  intro fd
  induction fd with
  | nil => intro rel mh mf e he; simp [entryCheck] at he
  | cons q rest ih =>
    intro rel mh mf e he
    obtain ⟨fn, sha⟩ := q
    rw [entryCheck] at he
    split at he
    · simp at he
      obtain ⟨-, rfl⟩ := he
      rfl
    · simp at he
      rcases he with he | he
      · obtain ⟨-, rfl⟩ := he
        rfl
      · exact ih _ _ _ e he

theorem ledgerCheck_trace_warns :
    ∀ (ledger : List (String × List (String × String))) (mh mf : String),
    ∀ e ∈ (ledgerCheck mh mf ledger).1, isWarnEv e = true := by
  intro ledger
  induction ledger with
  | nil => intro mh mf e he; simp [ledgerCheck] at he
  | cons q rest ih =>
    intro mh mf e he
    obtain ⟨rel, fd⟩ := q
    rw [ledgerCheck] at he
    have hfd := entryCheck_trace_warns fd rel mh mf
    split at he
    · rename_i tr er heq
      rw [heq] at hfd
      exact hfd e he
    · rename_i tr u heq
      rw [heq] at hfd
      simp at he
      rcases he with he | he
      · exact hfd e he
      · exact ih _ _ e he

theorem warn_not_zip {e : Event} (h : isWarnEv e = true) : isZipEv e = false := by
  cases e <;> simp_all [isWarnEv, isZipEv]

theorem warn_not_backup {e : Event} (h : isWarnEv e = true) : isBackupEv e = false := by
  cases e <;> simp_all [isWarnEv, isBackupEv]

theorem write_not_zip {e : Event} (h : isWriteEv e = true) : isZipEv e = false := by
  cases e <;> simp_all [isWriteEv, isZipEv]

theorem write_not_backup {e : Event} (h : isWriteEv e = true) : isBackupEv e = false := by
  cases e <;> simp_all [isWriteEv, isBackupEv]

theorem dgaFinish_error_zip_mem (inp : DgaInput) (tr : List Event) (fs' : FS)
    (mc : List Char) (mf : String) (mn : List Char) (err : VError)
    (h : (dgaFinish inp tr fs' mc mf mn).result = .error err) :
    ∀ p, Event.zip p ∈ (dgaFinish inp tr fs' mc mf mn).trace → Event.zip p ∈ tr := by
  intro p hp
  have hlw := ledgerCheck_trace_warns inp.ledger (sha256hex (utf8Encode mc)) mf (Event.zip p)
  simp only [dgaFinish] at h hp
  rcases hlc : ledgerCheck (sha256hex (utf8Encode mc)) mf inp.ledger with ⟨ltr, lres⟩
  rw [hlc] at h hp hlw
  rcases lres with e | u
  · simp at hp
    rcases hp with hp | hp
    · exact hp
    · have := warn_not_zip (hlw hp)
      simp [isZipEv] at this
  · simp at h

theorem dgaModelStage_error_zip_mem (inp : DgaInput) (tr : List Event) (fs' : FS)
    (loaded : Loaded) (err : VError)
    (h : (dgaModelStage inp tr fs' loaded).result = .error err) :
    ∀ p, Event.zip p ∈ (dgaModelStage inp tr fs' loaded).trace → Event.zip p ∈ tr := by
  intro p hp
  simp only [dgaModelStage] at h hp
  rcases hlook : List.lookup "model" loaded with - | ⟨mc, mf⟩ <;> rw [hlook] at h hp
  · simp at hp
    exact hp
  · dsimp only at h hp
    rcases hsp : pyRsplitOnce mf.toList '_' with - | ⟨mn, sf⟩ <;> rw [hsp] at h hp
    · simp at hp
      exact hp
    · dsimp only at h hp
      exact dgaFinish_error_zip_mem inp tr fs' mc mf mn err h p hp

theorem dga_error_no_zip (inp : DgaInput) (err : VError)
    (h : (validate_ml_dga_asset inp).result = .error err) :
    ∀ p, Event.zip p ∉ (validate_ml_dga_asset inp).trace := by
  intro p hp
  have hwr := dgaLoop_trace_writes inp.patterns inp.files (Event.zip p)
  simp only [validate_ml_dga_asset] at h hp
  by_cases hlen : 5 < inp.files.length
  · rw [if_pos hlen] at hp
    simp at hp
  · rw [if_neg hlen] at h hp
    rcases hdg : dgaLoop inp.patterns inp.files with ⟨tr, fs', res⟩
    rw [hdg] at h hp hwr
    rcases res with e | loaded
    · simp at hp
      have := write_not_zip (hwr hp)
      simp [isZipEv] at this
    · dsimp only at h hp hwr
      have := write_not_zip (hwr (dgaModelStage_error_zip_mem inp tr fs' loaded err h p hp))
      simp [isZipEv] at this

theorem det_error_no_zip (inp : DetInput) (err : VError)
    (h : (validate_ml_detections_asset inp).result = .error err) :
    ∀ p, Event.zip p ∉ (validate_ml_detections_asset inp).trace := by
  intro p hp
  simp only [validate_ml_detections_asset] at h hp
  by_cases hr : ¬ (otherFiles inp.files).any (fun f => pyLower f.1 = "readme.md")
  · rw [if_pos hr] at hp
    simp at hp
  · rw [if_neg hr] at h hp
    rcases hj : jobsCheck (jobFiles inp.files) with e | u <;> rw [hj] at h hp
    · simp at hp
    · rcases hrl : rulesCheck inp.tomlOk (ruleFiles inp.files) with e | u <;> rw [hrl] at h hp
      · simp at hp
      · simp at h

theorem dgaFinish_trace_shape (inp : DgaInput) (tr : List Event) (fs' : FS)
    (mc : List Char) (mf : String) (mn : List Char) :
    ∃ rest, (dgaFinish inp tr fs' mc mf mn).trace =
        Event.backup (backupName inp.dirName inp.now) :: (tr ++ rest) ∧
      ∀ e ∈ rest, isBackupEv e = false := by
  have hlw := ledgerCheck_trace_warns inp.ledger (sha256hex (utf8Encode mc)) mf
  simp only [dgaFinish]
  rcases hlc : ledgerCheck (sha256hex (utf8Encode mc)) mf inp.ledger with ⟨ltr, lres⟩
  rw [hlc] at hlw
  rcases lres with e | u
  · exact ⟨ltr, rfl, fun e he => warn_not_backup (hlw e he)⟩
  · refine ⟨ltr ++ [Event.zip (inp.dirName ++ ".zip")], by simp, fun e he => ?_⟩
    simp at he
    rcases he with he | rfl
    · exact warn_not_backup (hlw e he)
    · rfl

theorem dgaModelStage_trace_shape (inp : DgaInput) (tr : List Event) (fs' : FS)
    (loaded : Loaded) :
    ∃ rest, (dgaModelStage inp tr fs' loaded).trace =
        Event.backup (backupName inp.dirName inp.now) :: (tr ++ rest) ∧
      ∀ e ∈ rest, isBackupEv e = false := by
  simp only [dgaModelStage]
  rcases List.lookup "model" loaded with - | ⟨mc, mf⟩
  · exact ⟨[], by simp, by simp⟩
  · dsimp only
    rcases pyRsplitOnce mf.toList '_' with - | ⟨mn, sf⟩
    · exact ⟨[], by simp, by simp⟩
    · exact dgaFinish_trace_shape inp tr fs' mc mf mn

theorem replaceColons_no_colon (s : String) : ':' ∉ (replaceColons s).toList := by
  intro hc
  simp only [replaceColons] at hc
  have : (String.mk (s.toList.map (fun c => if c = ':' then '-' else c))).toList =
      s.toList.map (fun c => if c = ':' then '-' else c) := rfl
  rw [this] at hc
  simp at hc
  obtain ⟨a, -, ha⟩ := hc
  split at ha <;> simp_all

theorem dga_backup_before_writes (inp : DgaInput) (h : inp.files.length ≤ 5) :
    ∃ rest, (validate_ml_dga_asset inp).trace =
        Event.backup (backupName inp.dirName inp.now) :: rest ∧
      (∀ e ∈ rest, isBackupEv e = false) ∧ ':' ∉ (replaceColons inp.now).toList := by
  have hwr := dgaLoop_trace_writes inp.patterns inp.files
  simp only [validate_ml_dga_asset]
  rw [if_neg (by omega)]
  rcases hdg : dgaLoop inp.patterns inp.files with ⟨tr, fs', res⟩
  rw [hdg] at hwr
  rcases res with e | loaded
  · exact ⟨tr, rfl, fun e he => write_not_backup (hwr e he), replaceColons_no_colon _⟩
  · obtain ⟨rest, hsh, hrest⟩ := dgaModelStage_trace_shape inp tr fs' loaded
    refine ⟨tr ++ rest, hsh, fun e he => ?_, replaceColons_no_colon _⟩
    rcases List.mem_append.mp he with he | he
    · exact write_not_backup (hwr e he)
    · exact hrest e he

/-- C6: archive creation is the last step for both bundle types: a run that
fails with a fatal error has produced no archive — no `zip` event (the
`shutil.make_archive` call) occurs anywhere in the failed run's trace. -/
theorem C6_no_archive_on_error (inpD : DgaInput) (inpR : DetInput) (errD errR : VError) :
    ((validate_ml_dga_asset inpD).result = .error errD →
      ∀ p, Event.zip p ∉ (validate_ml_dga_asset inpD).trace) ∧
    ((validate_ml_detections_asset inpR).result = .error errR →
      ∀ p, Event.zip p ∉ (validate_ml_detections_asset inpR).trace) :=
  ⟨fun h => dga_error_no_zip inpD errD h, fun h => det_error_no_zip inpR errR h⟩

/-- Witness for C6 at two concrete failing runs: a six-file DGA bundle and a
detections bundle without a readme; neither trace contains the archive event
for the expected output path. -/
theorem C6_no_archive_on_error_witness :
    Event.zip "d.zip" ∉
      (validate_ml_dga_asset
        ⟨"d", [("f1", []), ("f2", []), ("f3", []), ("f4", []), ("f5", []), ("f6", [])],
         [], [], "t"⟩).trace ∧
    Event.zip "d.zip" ∉
      (validate_ml_detections_asset ⟨"d", [("rules.toml", [])], fun _ => true, "t"⟩).trace :=
  ⟨(C6_no_archive_on_error
      ⟨"d", [("f1", []), ("f2", []), ("f3", []), ("f4", []), ("f5", []), ("f6", [])], [], [], "t"⟩
      ⟨"d", [("rules.toml", [])], fun _ => true, "t"⟩
      (.client "Too many files, expected 5") (.client "Release is missing readme file")).1
    (by rfl) "d.zip",
   (C6_no_archive_on_error
      ⟨"d", [("f1", []), ("f2", []), ("f3", []), ("f4", []), ("f5", []), ("f6", [])], [], [], "t"⟩
      ⟨"d", [("rules.toml", [])], fun _ => true, "t"⟩
      (.client "Too many files, expected 5") (.client "Release is missing readme file")).2
    (by rfl) "d.zip"⟩

/-- C5 claim as stated is false: a directory with six files fails the initial
file-count check before `shutil.copytree` runs, so that validation run creates
no backup at all — the backup step is not unconditional over every run. -/
theorem C5_counterexample :
    (validate_ml_dga_asset
        ⟨"d", [("f1", []), ("f2", []), ("f3", []), ("f4", []), ("f5", []), ("f6", [])],
         [], [], "2020-01-01T00:00:00Z"⟩).result =
      .error (.client "Too many files, expected 5") ∧
    List.countP isBackupEv
        (validate_ml_dga_asset
          ⟨"d", [("f1", []), ("f2", []), ("f3", []), ("f4", []), ("f5", []), ("f6", [])],
           [], [], "2020-01-01T00:00:00Z"⟩).trace = 0 := by
  constructor
  · rfl
  · rfl

/-- C5 (amended): in every DGA run that passes the initial file-count check,
the backup is created exactly once — it is the first event of the trace, no
later event is a backup (in particular every rewrite comes after it),
regardless of how the rest of the run ends; its location combines the
directory name with the timestamp with colons replaced; a run failing the
count check creates no backup but rewrites nothing either. -/
theorem C5_backup_once_before_writes (inp : DgaInput) (h : inp.files.length ≤ 5) :
    ∃ rest, (validate_ml_dga_asset inp).trace =
        Event.backup (backupName inp.dirName inp.now) :: rest ∧
      (∀ e ∈ rest, isBackupEv e = false) ∧ ':' ∉ (replaceColons inp.now).toList :=
  dga_backup_before_writes inp h

/-- Witness for C5 (amended) at a concrete two-file run. -/
theorem C5_backup_once_before_writes_witness :
    ∃ rest, (validate_ml_dga_asset
        ⟨"d", [("a.json", ['1']), ("b.json", ['2'])], [("model", "a*")], [],
         "2020-01-01T00:00:00Z"⟩).trace =
        Event.backup (backupName "d" "2020-01-01T00:00:00Z") :: rest ∧
      (∀ e ∈ rest, isBackupEv e = false) ∧
      ':' ∉ (replaceColons "2020-01-01T00:00:00Z").toList :=
  C5_backup_once_before_writes
    ⟨"d", [("a.json", ['1']), ("b.json", ['2'])], [("model", "a*")], [],
     "2020-01-01T00:00:00Z"⟩ (by decide)

def writesTo (tr : List Event) (n : String) : Bool :=
  tr.any (fun e => match e with
    | .write m _ => m = n
    | _ => false)

theorem lookup_fsWrite_ne (fs : FS) (m n : String) (c : List Char) (h : n ≠ m) :
    List.lookup n (fsWrite fs m c) = List.lookup n fs := by
  induction fs with
  | nil => rfl
  | cons f rest ih =>
    obtain ⟨fn, fc⟩ := f
    by_cases hf : fn = m
    · subst hf
      simp only [fsWrite, List.map, if_pos rfl] at *
      have hne : (n == fn) = false := by simp [h]
      simp [List.lookup, hne, ih]
    · simp only [fsWrite, List.map, if_neg hf] at *
      by_cases hn : n = fn
      · subst hn
        simp [List.lookup]
      · have hne : (n == fn) = false := by simp [hn]
        simp [List.lookup, hne, ih]

theorem dgaLoop_untouched : ∀ (ps : List (String × String)) (fs : FS) (n : String),
    writesTo (dgaLoop ps fs).1 n = false →
    List.lookup n (dgaLoop ps fs).2.1 = List.lookup n fs := by
  intro ps
  induction ps with
  | nil => intro fs n _; rfl
  | cons p rest ih =>
    intro fs n h
    obtain ⟨name, pat⟩ := p
    rw [dgaLoop] at h ⊢
    generalize matchesOf fs pat = msAll at h ⊢
    cases msAll with
    | nil => rfl
    | cons fc ms =>
      obtain ⟨fname, content⟩ := fc
      cases ms with
      | nil =>
        dsimp only at h ⊢
        generalize parseTop content = pv at h ⊢
        cases pv with
        | none => rfl
        | some v =>
          dsimp only at h ⊢
          simp only [writesTo, List.any_cons, Bool.or_eq_false_iff] at h
          obtain ⟨h1, h2⟩ := h
          have hne : n ≠ fname := by
            intro hn
            subst hn
            simp at h1
          rw [ih _ n h2, lookup_fsWrite_ne fs fname n _ hne]
      | cons m ms' => rfl

theorem dgaLoop_writes_canonical : ∀ (ps : List (String × String)) (fs : FS) (n : String)
    (c : List Char), Event.write n c ∈ (dgaLoop ps fs).1 → ∃ v, c = dumpsSorted v := by
  intro ps
  induction ps with
  | nil => intro fs n c h; simp [dgaLoop] at h
  | cons p rest ih =>
    intro fs n c h
    obtain ⟨name, pat⟩ := p
    rw [dgaLoop] at h
    generalize matchesOf fs pat = msAll at h
    cases msAll with
    | nil => simp at h
    | cons fc ms =>
      obtain ⟨fname, content⟩ := fc
      cases ms with
      | nil =>
        dsimp only at h
        generalize parseTop content = pv at h
        cases pv with
        | none => simp at h
        | some v =>
          dsimp only at h
          rcases List.mem_cons.mp h with he | he
          · exact ⟨v, ((Event.write.injEq _ _ _ _).mp he).2⟩
          · exact ih _ n c he
      | cons m ms' =>
        simp at h

theorem dgaFinish_fs (inp : DgaInput) (tr : List Event) (fs' : FS) (mc : List Char)
    (mf : String) (mn : List Char) : (dgaFinish inp tr fs' mc mf mn).fs = fs' := by
  simp only [dgaFinish]
  rcases ledgerCheck (sha256hex (utf8Encode mc)) mf inp.ledger with ⟨ltr, lres⟩
  rcases lres with e | u <;> rfl

theorem dgaModelStage_fs (inp : DgaInput) (tr : List Event) (fs' : FS) (loaded : Loaded) :
    (dgaModelStage inp tr fs' loaded).fs = fs' := by
  simp only [dgaModelStage]
  rcases List.lookup "model" loaded with - | ⟨mc, mf⟩
  · rfl
  · dsimp only
    rcases pyRsplitOnce mf.toList '_' with - | ⟨mn, sf⟩
    · rfl
    · exact dgaFinish_fs inp tr fs' mc mf mn

theorem zip_not_backup {e : Event} (h : isZipEv e = true) : isBackupEv e = false := by
  cases e <;> simp_all [isZipEv, isBackupEv]

theorem zip_not_write {e : Event} (h : isZipEv e = true) : isWriteEv e = false := by
  cases e <;> simp_all [isZipEv, isWriteEv]

theorem warn_not_write {e : Event} (h : isWarnEv e = true) : isWriteEv e = false := by
  cases e <;> simp_all [isWarnEv, isWriteEv]

theorem dgaModelStage_trace_shape2 (inp : DgaInput) (tr : List Event) (fs' : FS)
    (loaded : Loaded) :
    ∃ rest, (dgaModelStage inp tr fs' loaded).trace =
        Event.backup (backupName inp.dirName inp.now) :: (tr ++ rest) ∧
      ∀ e ∈ rest, isWarnEv e = true ∨ isZipEv e = true := by
  simp only [dgaModelStage]
  rcases List.lookup "model" loaded with - | ⟨mc, mf⟩
  · exact ⟨[], by simp, by simp⟩
  · dsimp only
    rcases pyRsplitOnce mf.toList '_' with - | ⟨mn, sf⟩
    · exact ⟨[], by simp, by simp⟩
    · have hlw := ledgerCheck_trace_warns inp.ledger (sha256hex (utf8Encode mc)) mf
      simp only [dgaFinish]
      rcases hlc : ledgerCheck (sha256hex (utf8Encode mc)) mf inp.ledger with ⟨ltr, lres⟩
      rw [hlc] at hlw
      rcases lres with e | u
      · exact ⟨ltr, rfl, fun e he => Or.inl (hlw e he)⟩
      · refine ⟨ltr ++ [Event.zip (inp.dirName ++ ".zip")], by simp, fun e he => ?_⟩
        simp at he
        rcases he with he | rfl
        · exact Or.inl (hlw e he)
        · exact Or.inr rfl

theorem writesTo_false_of_append {l₁ l₂ : List Event} {n : String}
    (h : writesTo (l₁ ++ l₂) n = false) : writesTo l₁ n = false ∧ writesTo l₂ n = false := by
  simp only [writesTo, List.any_append, Bool.or_eq_false_iff] at h
  exact h

/-- C9 (amended): every fatal validation error aborts the DGA run with no
archive produced, and every file the failed run did not rewrite keeps its
original content; however, files already processed before the failure point
retain their rewritten content, each being the canonical serialization of the
JSON it held (so a failed run can leave a partially canonicalized directory,
which is why the backup is taken first). -/
theorem C9_error_aborts_with_prior_rewrites (inp : DgaInput) (err : VError)
    (h : (validate_ml_dga_asset inp).result = .error err) :
    (∀ p, Event.zip p ∉ (validate_ml_dga_asset inp).trace) ∧
    (∀ n, writesTo (validate_ml_dga_asset inp).trace n = false →
      List.lookup n (validate_ml_dga_asset inp).fs = List.lookup n inp.files) ∧
    (∀ n c, Event.write n c ∈ (validate_ml_dga_asset inp).trace → ∃ v, c = dumpsSorted v) := by
  refine ⟨dga_error_no_zip inp err h, ?_⟩
  by_cases hlen : 5 < inp.files.length
  · have hrun : validate_ml_dga_asset inp =
        ⟨.error (.client "Too many files, expected 5"), [], inp.files⟩ := by
      simp only [validate_ml_dga_asset]
      rw [if_pos hlen]
    rw [hrun]
    exact ⟨fun n _ => rfl, by simp⟩
  · rcases hdg : dgaLoop inp.patterns inp.files with ⟨tr, fs', res⟩
    have huntouched := dgaLoop_untouched inp.patterns inp.files
    have hcanon := dgaLoop_writes_canonical inp.patterns inp.files
    rw [hdg] at huntouched hcanon
    rcases res with e | loaded
    · have hrun : validate_ml_dga_asset inp =
          ⟨.error e, Event.backup (backupName inp.dirName inp.now) :: tr, fs'⟩ := by
        simp only [validate_ml_dga_asset]
        rw [if_neg hlen, hdg]
      rw [hrun]
      constructor
      · intro n hw
        simp only [writesTo, List.any_cons] at hw
        have : writesTo tr n = false := by
          simp only [writesTo]
          cases hany : tr.any _ <;> simp_all
        exact huntouched n this
      · intro n c hc
        rcases List.mem_cons.mp hc with he | he
        · exact absurd he (by simp)
        · exact hcanon n c he
    · have hrun : validate_ml_dga_asset inp = dgaModelStage inp tr fs' loaded := by
        simp only [validate_ml_dga_asset]
        rw [if_neg hlen, hdg]
      rw [hrun]
      obtain ⟨rest, hsh, hrest⟩ := dgaModelStage_trace_shape2 inp tr fs' loaded
      constructor
      · intro n hw
        rw [hsh] at hw
        simp only [writesTo, List.any_cons] at hw
        have h2 : writesTo (tr ++ rest) n = false := by
          simp only [writesTo]
          cases hany : (tr ++ rest).any _ <;> simp_all
        rw [dgaModelStage_fs inp tr fs' loaded]
        exact huntouched n (writesTo_false_of_append h2).1
      · intro n c hc
        rw [hsh] at hc
        rcases List.mem_cons.mp hc with he | he
        · exact absurd he (by simp)
        · rcases List.mem_append.mp he with he | he
          · exact hcanon n c he
          · rcases hrest _ he with hw | hz
            · exact absurd (warn_not_write hw) (by simp [isWriteEv])
            · exact absurd (zip_not_write hz) (by simp [isWriteEv])

/-- C9 claim as stated is false: in a two-role run whose second role's file is
invalid JSON, the run fails, yet the first role's file has already been
rewritten on disk with canonical bytes — the directory's contents are not
unchanged on error. -/
theorem C9_counterexample :
    (validate_ml_dga_asset
        ⟨"d", [("a.json", "\x7b\"b\": 1, \"a\": 2\x7d".toList), ("b.json", ['\x7b'])],
         [("ra", "a.json"), ("rb", "b.json")], [], "t"⟩).result =
      .error (.client (parseErrMsg "b.json")) ∧
    List.lookup "a.json"
        (validate_ml_dga_asset
          ⟨"d", [("a.json", "\x7b\"b\": 1, \"a\": 2\x7d".toList), ("b.json", ['\x7b'])],
           [("ra", "a.json"), ("rb", "b.json")], [], "t"⟩).fs ≠
      List.lookup "a.json"
        [("a.json", "\x7b\"b\": 1, \"a\": 2\x7d".toList), ("b.json", ['\x7b'])] := by
  constructor
  · rfl
  · decide

/-- Witness for C9 (amended): in the failed run of the counterexample input,
the unprocessed file `b.json` still holds its original content. -/
theorem C9_error_aborts_witness :
    List.lookup "b.json"
        (validate_ml_dga_asset
          ⟨"d", [("a.json", "\x7b\"b\": 1, \"a\": 2\x7d".toList), ("b.json", ['\x7b'])],
           [("ra", "a.json"), ("rb", "b.json")], [], "t"⟩).fs = some ['\x7b'] :=
  ((C9_error_aborts_with_prior_rewrites
      ⟨"d", [("a.json", "\x7b\"b\": 1, \"a\": 2\x7d".toList), ("b.json", ['\x7b'])],
       [("ra", "a.json"), ("rb", "b.json")], [], "t"⟩
      (.client (parseErrMsg "b.json")) (by rfl)).2.1 "b.json" (by decide)).trans (by decide)

/-- C8 (amended): a detections bundle passes the readme check exactly when
some file outside the `.json`/`.toml` partitions has the name `readme.md`
case-insensitively (not merely `readme`): a successful run has such a file,
and without one the run fails fatally reporting the missing readme. -/
theorem C8_readme_required (inp : DetInput) :
    ((validate_ml_detections_asset inp).result.isOk = true →
      (otherFiles inp.files).any (fun f => pyLower f.1 = "readme.md") = true) ∧
    ((otherFiles inp.files).any (fun f => pyLower f.1 = "readme.md") = false →
      (validate_ml_detections_asset inp).result =
        .error (.client "Release is missing readme file")) := by
  simp only [validate_ml_detections_asset]
  cases hany : (otherFiles inp.files).any (fun f => pyLower f.1 = "readme.md")
  · rw [if_pos (by simp [hany])]
    exact ⟨fun h => Bool.noConfusion h, fun _ => rfl⟩
  · rw [if_neg (by simp [hany])]
    exact ⟨fun _ => rfl, fun h => absurd h (by decide)⟩

/-- Witness for C8 (amended) at two concrete bundles: one whose only file is
`README.md` (run succeeds, readme present), one whose only file is `x.bin`
(run fails with the readme error). -/
theorem C8_readme_required_witness :
    (otherFiles [("README.md", ([] : List Char))]).any
        (fun f => pyLower f.1 = "readme.md") = true ∧
    (validate_ml_detections_asset ⟨"d", [("x.bin", [])], fun _ => true, "t"⟩).result =
      .error (.client "Release is missing readme file") :=
  ⟨(C8_readme_required ⟨"d", [("README.md", [])], fun _ => true, "t"⟩).1 (by rfl),
   (C8_readme_required ⟨"d", [("x.bin", [])], fun _ => true, "t"⟩).2 (by rfl)⟩

/-- C8 claim as stated is false: the code requires a file named `readme.md`
case-insensitively, not one matching `readme`: a bundle whose only file is
`readme.md` validates successfully although no other-file name equals
`readme` case-insensitively (and, conversely, a bundle containing only a file
named `readme` fails). -/
theorem C8_counterexample :
    (validate_ml_detections_asset ⟨"d", [("readme.md", [])], fun _ => true, "t"⟩).result.isOk
        = true ∧
    (otherFiles [("readme.md", ([] : List Char))]).all
        (fun f => ¬ pyLower f.1 = "readme") = true ∧
    (validate_ml_detections_asset ⟨"d", [("readme", [])], fun _ => true, "t"⟩).result =
      .error (.client "Release is missing readme file") := by
  refine ⟨rfl, by decide, rfl⟩

theorem jobsCheck_ok_all : ∀ (jobs : FS), jobsCheck jobs = .ok () →
    ∀ p ∈ jobs, ∃ kvs, parseTop p.2 = some (.obj kvs) ∧
      truthyField kvs "name" = true ∧ truthyField kvs "type" = true ∧
      truthyField kvs "body" = true := by
  intro jobs
  induction jobs with
  | nil => intro _ p hp; simp at hp
  | cons j rest ih =>
    intro h p hp
    obtain ⟨name, content⟩ := j
    rw [jobsCheck] at h
    generalize hpt : parseTop content = pv at h
    cases pv with
    | none => exact absurd h (by simp)
    | some v =>
      cases v with
      | obj kvs =>
        dsimp only at h
        by_cases h1 : truthyField kvs "name" = true
        · rw [if_neg (not_not_intro h1)] at h
          by_cases h2 : truthyField kvs "type" = true
          · rw [if_neg (not_not_intro h2)] at h
            by_cases h3 : truthyField kvs "body" = true
            · rw [if_neg (not_not_intro h3)] at h
              rcases List.mem_cons.mp hp with rfl | hp
              · exact ⟨kvs, hpt, h1, h2, h3⟩
              · exact ih h p hp
            · rw [if_pos h3] at h
              exact absurd h (by simp)
          · rw [if_pos h2] at h
            exact absurd h (by simp)
        · rw [if_pos h1] at h
          exact absurd h (by simp)
      | null => exact absurd h (by simp)
      | bool b => exact absurd h (by simp)
      | num m => exact absurd h (by simp)
      | str s => exact absurd h (by simp)
      | arr xs => exact absurd h (by simp)

theorem jobsCheck_append_ok : ∀ (pre post : FS), jobsCheck pre = .ok () →
    jobsCheck (pre ++ post) = jobsCheck post := by
  intro pre
  induction pre with
  | nil => intro post _; rfl
  | cons j rest ih =>
    intro post h
    obtain ⟨name, content⟩ := j
    rw [jobsCheck] at h
    rw [List.cons_append, jobsCheck]
    generalize hpt : parseTop content = pv at h ⊢
    cases pv with
    | none => exact absurd h (by simp)
    | some v =>
      cases v with
      | obj kvs =>
        dsimp only at h ⊢
        by_cases h1 : truthyField kvs "name" = true
        · rw [if_neg (not_not_intro h1)] at h ⊢
          by_cases h2 : truthyField kvs "type" = true
          · rw [if_neg (not_not_intro h2)] at h ⊢
            by_cases h3 : truthyField kvs "body" = true
            · rw [if_neg (not_not_intro h3)] at h ⊢
              exact ih post h
            · rw [if_pos h3] at h
              exact absurd h (by simp)
          · rw [if_pos h2] at h
            exact absurd h (by simp)
        · rw [if_pos h1] at h
          exact absurd h (by simp)
      | null => exact absurd h (by simp)
      | bool b => exact absurd h (by simp)
      | num m => exact absurd h (by simp)
      | str s => exact absurd h (by simp)
      | arr xs => exact absurd h (by simp)

theorem jobsCheck_first_missing (name : String) (content : List Char) (post : FS)
    (kvs : List (List Char × Json)) (hpt : parseTop content = some (.obj kvs))
    (hmiss : ¬(truthyField kvs "name" = true ∧ truthyField kvs "type" = true ∧
      truthyField kvs "body" = true)) :
    ∃ fld, truthyField kvs fld = false ∧
      jobsCheck ((name, content) :: post) = .error (.crash (missingMsg name fld)) := by
  rw [jobsCheck, hpt]
  dsimp only
  by_cases h1 : truthyField kvs "name" = true
  · rw [if_neg (not_not_intro h1)]
    by_cases h2 : truthyField kvs "type" = true
    · rw [if_neg (not_not_intro h2)]
      by_cases h3 : truthyField kvs "body" = true
      · exact absurd ⟨h1, h2, h3⟩ hmiss
      · exact ⟨"body", by simpa using h3, by rw [if_pos h3]⟩
    · exact ⟨"type", by simpa using h2, by rw [if_pos h2]⟩
  · exact ⟨"name", by simpa using h1, by rw [if_pos h1]⟩

theorem det_ok_jobsCheck (inp : DetInput)
    (h : (validate_ml_detections_asset inp).result.isOk = true) :
    jobsCheck (jobFiles inp.files) = .ok () := by
  simp only [validate_ml_detections_asset] at h
  cases hany : (otherFiles inp.files).any (fun f => pyLower f.1 = "readme.md")
  · rw [if_pos (by simp [hany])] at h
    exact absurd h (by simp [Except.isOk, Except.toBool])
  · rw [if_neg (by simp [hany])] at h
    rcases hj : jobsCheck (jobFiles inp.files) with e | u
    · rw [hj] at h
      exact absurd h (by simp [Except.isOk, Except.toBool])
    · cases u
      rfl

/-- C7: for every `.json` job file, the fields `name`, `type` and `body` must
be present and truthy: a successful run has validated all three in every job
file, and when the first schema violation of the job loop is a missing or
falsy field of some job file, the run fails fatally with the error naming that
job file and that field. -/
theorem C7_job_required_fields (inp : DetInput) :
    ((validate_ml_detections_asset inp).result.isOk = true →
      ∀ p ∈ jobFiles inp.files, ∃ kvs, parseTop p.2 = some (.obj kvs) ∧
        truthyField kvs "name" = true ∧ truthyField kvs "type" = true ∧
        truthyField kvs "body" = true) ∧
    (∀ pre nm c post kvs,
      jobFiles inp.files = pre ++ (nm, c) :: post →
      (otherFiles inp.files).any (fun f => pyLower f.1 = "readme.md") = true →
      jobsCheck pre = .ok () →
      parseTop c = some (.obj kvs) →
      ¬(truthyField kvs "name" = true ∧ truthyField kvs "type" = true ∧
        truthyField kvs "body" = true) →
      ∃ fld, truthyField kvs fld = false ∧
        (validate_ml_detections_asset inp).result = .error (.crash (missingMsg nm fld))) := by
  constructor
  · intro h
    exact jobsCheck_ok_all (jobFiles inp.files) (det_ok_jobsCheck inp h)
  · intro pre nm c post kvs hjobs hany hpre hpt hmiss
    obtain ⟨fld, hfld, hrun⟩ := jobsCheck_first_missing nm c post kvs hpt hmiss
    refine ⟨fld, hfld, ?_⟩
    have hall : jobsCheck (jobFiles inp.files) = .error (.crash (missingMsg nm fld)) := by
      rw [hjobs, jobsCheck_append_ok pre _ hpre, hrun]
    simp only [validate_ml_detections_asset]
    rw [if_neg (by simp [hany]), hall]

/-- Witness for C7 at a concrete bundle: a readme plus one job file that has
`name` and `type` but no `body`; the run fails naming `job.json` and a falsy
field. -/
theorem C7_job_required_fields_witness :
    ∃ fld, truthyField [("name".toList, Json.str ['a']), ("type".toList, Json.str ['b'])]
        fld = false ∧
      (validate_ml_detections_asset
        ⟨"d", [("readme.md", []),
               ("job.json", "\x7b\"name\": \"a\", \"type\": \"b\"\x7d".toList)],
         fun _ => true, "t"⟩).result =
        .error (.crash (missingMsg "job.json" fld)) :=
  (C7_job_required_fields
      ⟨"d", [("readme.md", []),
             ("job.json", "\x7b\"name\": \"a\", \"type\": \"b\"\x7d".toList)],
       fun _ => true, "t"⟩).2
    [] "job.json" "\x7b\"name\": \"a\", \"type\": \"b\"\x7d".toList []
    [("name".toList, Json.str ['a']), ("type".toList, Json.str ['b'])]
    (by decide) (by decide) (by rfl) (by decide) (by decide)

theorem fsWrite_names (fs : FS) (n : String) (c : List Char) :
    (fsWrite fs n c).map Prod.fst = fs.map Prod.fst := by
  induction fs with
  | nil => rfl
  | cons f rest ih =>
    obtain ⟨fn, fc⟩ := f
    by_cases hf : fn = n <;> simp [fsWrite, hf] at ih ⊢ <;> exact ih

theorem matchesOf_length_of_names {fs1 fs2 : FS} (pat : String)
    (h : fs1.map Prod.fst = fs2.map Prod.fst) :
    (matchesOf fs1 pat).length = (matchesOf fs2 pat).length := by
  have e1 : (matchesOf fs1 pat).length =
      (fs1.map Prod.fst).countP (fun n => globMatch pat n) := by
    rw [List.countP_map, matchesOf, ← List.countP_eq_length_filter]
    rfl
  have e2 : (matchesOf fs2 pat).length =
      (fs2.map Prod.fst).countP (fun n => globMatch pat n) := by
    rw [List.countP_map, matchesOf, ← List.countP_eq_length_filter]
    rfl
  rw [e1, e2, h]

theorem dgaLoop_names : ∀ (ps : List (String × String)) (fs : FS),
    (dgaLoop ps fs).2.1.map Prod.fst = fs.map Prod.fst := by
  intro ps
  induction ps with
  | nil => intro fs; rfl
  | cons p rest ih =>
    intro fs
    obtain ⟨name, pat⟩ := p
    rw [dgaLoop]
    generalize matchesOf fs pat = ms
    cases ms with
    | nil => rfl
    | cons fc ms' =>
      obtain ⟨fname, content⟩ := fc
      cases ms' with
      | nil =>
        dsimp only
        generalize parseTop content = pv
        cases pv with
        | none => rfl
        | some v =>
          dsimp only
          rw [ih, fsWrite_names]
      | cons m ms'' => rfl

theorem dgaLoop_ok_counts : ∀ (ps : List (String × String)) (fs : FS) (tr : List Event)
    (fs' : FS) (l : Loaded), dgaLoop ps fs = (tr, fs', .ok l) →
    ∀ q ∈ ps, (matchesOf fs q.2).length = 1 := by
  intro ps
  induction ps with
  | nil => intro fs tr fs' l _ q hq; simp at hq
  | cons p rest ih =>
    intro fs tr fs' l h q hq
    obtain ⟨name, pat⟩ := p
    rw [dgaLoop] at h
    generalize hm : matchesOf fs pat = ms at h
    cases ms with
    | nil => simp at h
    | cons fc ms' =>
      obtain ⟨fname, content⟩ := fc
      cases ms' with
      | nil =>
        dsimp only at h
        generalize hpt : parseTop content = pv at h
        cases pv with
        | none => simp at h
        | some v =>
          dsimp only at h
          rcases hstep : dgaLoop rest (fsWrite fs fname (dumpsSorted v)) with ⟨tr1, fs1, res1⟩
          rw [hstep] at h
          cases res1 with
          | error e => simp [Except.map] at h
          | ok l1 =>
            rcases List.mem_cons.mp hq with rfl | hq
            · simp [hm]
            · have := ih _ tr1 fs1 l1 hstep q hq
              calc (matchesOf fs q.2).length
                  = (matchesOf (fsWrite fs fname (dumpsSorted v)) q.2).length :=
                    (matchesOf_length_of_names q.2 (fsWrite_names fs fname _)).symm
                _ = 1 := this
      | cons m ms'' => simp at h

theorem dgaLoop_bad_count_error : ∀ (ps : List (String × String)) (fs : FS)
    (q : String × String), q ∈ ps → (matchesOf fs q.2).length ≠ 1 →
    ∃ e tr fs', dgaLoop ps fs = (tr, fs', .error e) := by
  intro ps
  induction ps with
  | nil => intro fs q hq _; simp at hq
  | cons p rest ih =>
    intro fs q hq hbad
    obtain ⟨name, pat⟩ := p
    rw [dgaLoop]
    generalize hm : matchesOf fs pat = ms
    cases ms with
    | nil => exact ⟨_, _, _, rfl⟩
    | cons fc ms' =>
      obtain ⟨fname, content⟩ := fc
      cases ms' with
      | nil =>
        dsimp only
        generalize hpt : parseTop content = pv
        cases pv with
        | none => exact ⟨_, _, _, rfl⟩
        | some v =>
          dsimp only
          rcases List.mem_cons.mp hq with rfl | hq
          · rw [hm] at hbad
            simp at hbad
          · have hbad' : (matchesOf (fsWrite fs fname (dumpsSorted v)) q.2).length ≠ 1 := by
              rw [matchesOf_length_of_names q.2 (fsWrite_names fs fname _)]
              exact hbad
            obtain ⟨e, tr1, fs1, hres⟩ := ih (fsWrite fs fname (dumpsSorted v)) q hq hbad'
            exact ⟨e, Event.write fname (dumpsSorted v) :: tr1, fs1, by rw [hres]; rfl⟩
      | cons m ms'' => exact ⟨_, _, _, rfl⟩

theorem dgaLoop_after_ok_bad_count : ∀ (pre : List (String × String)) (nm pat : String)
    (post : List (String × String)) (fs : FS) (tr : List Event) (fs' : FS) (l : Loaded),
    dgaLoop pre fs = (tr, fs', .ok l) →
    (matchesOf fs' pat).length ≠ 1 →
    ∃ tr2, dgaLoop (pre ++ (nm, pat) :: post) fs =
      (tr2, fs', .error (.client (enumErrMsg pat nm (matchesOf fs' pat).length))) := by
  intro pre
  induction pre with
  | nil =>
    intro nm pat post fs tr fs' l h hbad
    rw [dgaLoop] at h
    simp only [Prod.mk.injEq] at h
    obtain ⟨-, rfl, -⟩ := h
    rw [List.nil_append, dgaLoop]
    generalize hm : matchesOf fs pat = ms at hbad ⊢
    cases ms with
    | nil => exact ⟨[], rfl⟩
    | cons fc ms' =>
      obtain ⟨fname, content⟩ := fc
      cases ms' with
      | nil => simp at hbad
      | cons m ms'' => exact ⟨[], rfl⟩
  | cons q pre' ih =>
    intro nm pat post fs tr fs' l h hbad
    obtain ⟨qn, qp⟩ := q
    rw [dgaLoop] at h
    rw [List.cons_append, dgaLoop]
    generalize hm : matchesOf fs qp = ms at h ⊢
    cases ms with
    | nil => simp at h
    | cons fc ms' =>
      obtain ⟨fname, content⟩ := fc
      cases ms' with
      | nil =>
        dsimp only at h ⊢
        generalize hpt : parseTop content = pv at h ⊢
        cases pv with
        | none => simp at h
        | some v =>
          dsimp only at h ⊢
          rcases hstep : dgaLoop pre' (fsWrite fs fname (dumpsSorted v)) with ⟨tr1, fs1, res1⟩
          rw [hstep] at h
          cases res1 with
          | error e => simp [Except.map] at h
          | ok l1 =>
            simp only [Prod.mk.injEq] at h
            obtain ⟨-, hfs, -⟩ := h
            subst hfs
            obtain ⟨tr2, hres⟩ := ih nm pat post _ tr1 fs1 l1 hstep hbad
            exact ⟨Event.write fname (dumpsSorted v) :: tr2, by rw [hres]; rfl⟩
      | cons m ms'' => simp at h

/-- C1: the enumeration contract of the DGA pattern loop: a run that returns
successfully had exactly one file matching every role's pattern; any role with
zero or multiple matches makes the run fail; and when the first failure of the
loop is a role with a bad match count, the error is the fatal message naming
that role's pattern and the number of matches detected. -/
theorem C1_exact_one_match (inp : DgaInput) :
    ((∃ r, (validate_ml_dga_asset inp).result = .ok r) →
      ∀ q ∈ inp.patterns, (matchesOf inp.files q.2).length = 1) ∧
    (∀ q ∈ inp.patterns, (matchesOf inp.files q.2).length ≠ 1 →
      ∃ e, (validate_ml_dga_asset inp).result = .error e) ∧
    (∀ pre nm pat post tr fs' l,
      inp.patterns = pre ++ (nm, pat) :: post →
      inp.files.length ≤ 5 →
      dgaLoop pre inp.files = (tr, fs', .ok l) →
      (matchesOf inp.files pat).length ≠ 1 →
      (validate_ml_dga_asset inp).result =
        .error (.client (enumErrMsg pat nm (matchesOf inp.files pat).length))) := by
  refine ⟨?_, ?_, ?_⟩
  · rintro ⟨r, hr⟩ q hq
    simp only [validate_ml_dga_asset] at hr
    by_cases hlen : 5 < inp.files.length
    · rw [if_pos hlen] at hr
      exact absurd hr (by simp)
    · rw [if_neg hlen] at hr
      rcases hdg : dgaLoop inp.patterns inp.files with ⟨tr, fs', res⟩
      rw [hdg] at hr
      cases res with
      | error e => exact absurd hr (by simp)
      | ok loaded => exact dgaLoop_ok_counts inp.patterns inp.files tr fs' loaded hdg q hq
  · intro q hq hbad
    by_cases hlen : 5 < inp.files.length
    · refine ⟨.client "Too many files, expected 5", ?_⟩
      simp only [validate_ml_dga_asset]
      rw [if_pos hlen]
    · obtain ⟨e, tr, fs', hres⟩ := dgaLoop_bad_count_error inp.patterns inp.files q hq hbad
      refine ⟨e, ?_⟩
      simp only [validate_ml_dga_asset]
      rw [if_neg hlen, hres]
  · intro pre nm pat post tr fs' l hpat hlen hpre hbad
    have hnames := dgaLoop_names pre inp.files
    rw [hpre] at hnames
    have hcnt : (matchesOf fs' pat).length = (matchesOf inp.files pat).length :=
      matchesOf_length_of_names pat hnames
    obtain ⟨tr2, hres⟩ :=
      dgaLoop_after_ok_bad_count pre nm pat post inp.files tr fs' l hpre
        (by rw [hcnt]; exact hbad)
    simp only [validate_ml_dga_asset]
    rw [if_neg (by omega), hpat, hres, ← hcnt]

/-- Witness for C1 at a concrete bundle: the first role matches one valid
file, the second role matches nothing, and the run fails with the enumeration
error naming the second role's pattern and zero matches. -/
theorem C1_exact_one_match_witness :
    (validate_ml_dga_asset
        ⟨"d", [("a_model.json", ['3'])], [("model", "*model*"), ("cfg", "*cfg*")], [],
         "t"⟩).result =
      .error (.client (enumErrMsg "*cfg*" "cfg"
        (matchesOf [("a_model.json", ['3'])] "*cfg*").length)) :=
  (C1_exact_one_match
      ⟨"d", [("a_model.json", ['3'])], [("model", "*model*"), ("cfg", "*cfg*")], [], "t"⟩).2.2
    [("model", "*model*")] "cfg" "*cfg*" []
    [Event.write "a_model.json" ['3']] [("a_model.json", ['3'])]
    [("model", (['3'], "a_model.json"))]
    (by rfl) (by decide) (by rfl) (by decide)

theorem entryCheck_ok_of_no_name : ∀ (fd : List (String × String)) (rel mh mf : String),
    (∀ q ∈ fd, mf ≠ q.1) → (entryCheck rel mh mf fd).2 = .ok () := by
  intro fd
  induction fd with
  | nil => intro rel mh mf _; rfl
  | cons q rest ih =>
    intro rel mh mf h
    obtain ⟨fn, sha⟩ := q
    rw [entryCheck]
    rw [if_neg (h (fn, sha) (List.mem_cons_self _ _))]
    exact ih rel mh mf (fun q hq => h q (List.mem_cons_of_mem _ hq))

theorem entryCheck_error_shape : ∀ (fd : List (String × String)) (rel mh mf : String)
    (e : VError), (entryCheck rel mh mf fd).2 = .error e →
    ∃ fn, e = .client (nameErrMsg mf rel fn) := by
  intro fd
  induction fd with
  | nil => intro rel mh mf e h; simp [entryCheck] at h
  | cons q rest ih =>
    intro rel mh mf e h
    obtain ⟨fn, sha⟩ := q
    rw [entryCheck] at h
    by_cases hn : mf = fn
    · rw [if_pos hn] at h
      simp at h
      exact ⟨fn, h.symm⟩
    · rw [if_neg hn] at h
      exact ih rel mh mf e h

theorem entryCheck_warn_mem : ∀ (fd : List (String × String)) (rel mh mf fn0 h0 : String),
    (fn0, h0) ∈ fd → mh = h0 → (∀ q ∈ fd, mf ≠ q.1) →
    Event.warn (hashWarnMsg mf rel fn0 h0) ∈ (entryCheck rel mh mf fd).1 := by
  intro fd
  induction fd with
  | nil => intro rel mh mf fn0 h0 hmem _ _; simp at hmem
  | cons q rest ih =>
    intro rel mh mf fn0 h0 hmem hh h
    obtain ⟨fn, sha⟩ := q
    rw [entryCheck]
    rw [if_neg (h (fn, sha) (List.mem_cons_self _ _))]
    rcases List.mem_cons.mp hmem with heq | hmem
    · obtain ⟨rfl, rfl⟩ := Prod.mk.injEq _ _ _ _ ▸ heq
      subst hh
      simp [List.mem_append]
    · refine List.mem_append.mpr (Or.inr ?_)
      exact ih rel mh mf fn0 h0 hmem hh (fun q hq => h q (List.mem_cons_of_mem _ hq))

theorem ledgerCheck_ok_of_no_name :
    ∀ (ledger : List (String × List (String × String))) (mh mf : String),
    (∀ r ∈ ledger, ∀ q ∈ r.2, mf ≠ q.1) → (ledgerCheck mh mf ledger).2 = .ok () := by
  intro ledger
  induction ledger with
  | nil => intro mh mf _; rfl
  | cons r rest ih =>
    intro mh mf h
    obtain ⟨rel, fd⟩ := r
    rw [ledgerCheck]
    have hok := entryCheck_ok_of_no_name fd rel mh mf
      (fun q hq => h (rel, fd) (List.mem_cons_self _ _) q hq)
    rcases heq : entryCheck rel mh mf fd with ⟨tr, lres⟩
    rw [heq] at hok
    cases lres with
    | error e => simp at hok
    | ok u =>
      dsimp only
      exact ih mh mf (fun r hr q hq => h r (List.mem_cons_of_mem _ hr) q hq)

theorem ledgerCheck_warn_mem :
    ∀ (ledger : List (String × List (String × String))) (mh mf r0 : String)
    (fd0 : List (String × String)) (fn0 h0 : String),
    (r0, fd0) ∈ ledger → (fn0, h0) ∈ fd0 → mh = h0 →
    (∀ r ∈ ledger, ∀ q ∈ r.2, mf ≠ q.1) →
    Event.warn (hashWarnMsg mf r0 fn0 h0) ∈ (ledgerCheck mh mf ledger).1 := by
  intro ledger
  induction ledger with
  | nil => intro mh mf r0 fd0 fn0 h0 hr _ _ _; simp at hr
  | cons r rest ih =>
    intro mh mf r0 fd0 fn0 h0 hr hf hh h
    obtain ⟨rel, fd⟩ := r
    rw [ledgerCheck]
    have hok := entryCheck_ok_of_no_name fd rel mh mf
      (fun q hq => h (rel, fd) (List.mem_cons_self _ _) q hq)
    rcases heq : entryCheck rel mh mf fd with ⟨tr, lres⟩
    rw [heq] at hok
    cases lres with
    | error e => simp at hok
    | ok u =>
      dsimp only
      rcases List.mem_cons.mp hr with heq2 | hr
      · obtain ⟨rfl, rfl⟩ := Prod.mk.injEq _ _ _ _ ▸ heq2
        refine List.mem_append.mpr (Or.inl ?_)
        have := entryCheck_warn_mem fd0 r0 mh mf fn0 h0 hf hh
          (fun q hq => h (r0, fd0) (List.mem_cons_self _ _) q hq)
        rw [heq] at this
        exact this
      · refine List.mem_append.mpr (Or.inr ?_)
        exact ih mh mf r0 fd0 fn0 h0 hr hf hh
          (fun r hrr q hq => h r (List.mem_cons_of_mem _ hrr) q hq)

theorem entryCheck_name_error : ∀ (fd : List (String × String)) (rel mh mf : String),
    (∃ q ∈ fd, mf = q.1) →
    ∃ e, (entryCheck rel mh mf fd).2 = .error e := by
  intro fd
  induction fd with
  | nil => intro rel mh mf h; simp at h
  | cons q rest ih =>
    intro rel mh mf h
    obtain ⟨fn, sha⟩ := q
    rw [entryCheck]
    by_cases hn : mf = fn
    · rw [if_pos hn]
      exact ⟨_, rfl⟩
    · rw [if_neg hn]
      rcases h with ⟨q', hq', hmf⟩
      rcases List.mem_cons.mp hq' with rfl | hq'
      · exact absurd hmf hn
      · dsimp only
        exact ih rel mh mf ⟨q', hq', hmf⟩

theorem ledgerCheck_name_error :
    ∀ (ledger : List (String × List (String × String))) (mh mf : String),
    (∃ r ∈ ledger, ∃ q ∈ r.2, mf = q.1) →
    ∃ rel fn, (ledgerCheck mh mf ledger).2 = .error (.client (nameErrMsg mf rel fn)) := by
  intro ledger
  induction ledger with
  | nil => intro mh mf h; simp at h
  | cons r rest ih =>
    intro mh mf h
    obtain ⟨rel, fd⟩ := r
    rw [ledgerCheck]
    rcases heq : entryCheck rel mh mf fd with ⟨tr, lres⟩
    cases lres with
    | error e =>
      have := entryCheck_error_shape fd rel mh mf e (by rw [heq])
      obtain ⟨fn, rfl⟩ := this
      exact ⟨rel, fn, rfl⟩
    | ok u =>
      dsimp only
      rcases h with ⟨r', hr', hq'⟩
      rcases List.mem_cons.mp hr' with rfl | hr'
      · obtain ⟨e, he⟩ := entryCheck_name_error fd rel mh mf hq'
        rw [heq] at he
        simp at he
      · exact ih mh mf ⟨r', hr', hq'⟩

/-- C4: the DGA ledger cross-check. If no historical entry's file name equals
the model's file name, the run completes successfully even when some entry's
hash equals the model's canonical hash — that hash match only emits the
warning referencing the matching release. If any historical entry's file name
equals the model's file name, the run fails fatally with the identity-conflict
error, regardless of hashes. -/
theorem C4_ledger_cross_check (inp : DgaInput) :
    (∀ tr fs' loaded mc mf mn sf r0 fd0 fn0 h0,
      inp.files.length ≤ 5 →
      dgaLoop inp.patterns inp.files = (tr, fs', .ok loaded) →
      List.lookup "model" loaded = some (mc, mf) →
      pyRsplitOnce mf.toList '_' = some (mn, sf) →
      (∀ r ∈ inp.ledger, ∀ q ∈ r.2, mf ≠ q.1) →
      (r0, fd0) ∈ inp.ledger → (fn0, h0) ∈ fd0 → sha256hex (utf8Encode mc) = h0 →
      (∃ res, (validate_ml_dga_asset inp).result = .ok res) ∧
        Event.warn (hashWarnMsg mf r0 fn0 h0) ∈ (validate_ml_dga_asset inp).trace) ∧
    (∀ tr fs' loaded mc mf mn sf,
      inp.files.length ≤ 5 →
      dgaLoop inp.patterns inp.files = (tr, fs', .ok loaded) →
      List.lookup "model" loaded = some (mc, mf) →
      pyRsplitOnce mf.toList '_' = some (mn, sf) →
      (∃ r ∈ inp.ledger, ∃ q ∈ r.2, mf = q.1) →
      ∃ rel fn, (validate_ml_dga_asset inp).result =
        .error (.client (nameErrMsg mf rel fn))) := by
  constructor
  · intro tr fs' loaded mc mf mn sf r0 fd0 fn0 h0 hlen hdg hlook hsp hnoname hr0 hf0 hsha
    have hrun : validate_ml_dga_asset inp = dgaFinish inp tr fs' mc mf mn := by
      simp only [validate_ml_dga_asset]
      rw [if_neg (by omega), hdg]
      simp only [dgaModelStage]
      rw [hlook]
      dsimp only
      rw [hsp]
    rw [hrun]
    have hok := ledgerCheck_ok_of_no_name inp.ledger (sha256hex (utf8Encode mc)) mf hnoname
    have hwm := ledgerCheck_warn_mem inp.ledger (sha256hex (utf8Encode mc)) mf r0 fd0 fn0 h0
      hr0 hf0 hsha hnoname
    simp only [dgaFinish]
    rcases hlc : ledgerCheck (sha256hex (utf8Encode mc)) mf inp.ledger with ⟨ltr, lres⟩
    rw [hlc] at hok hwm
    cases lres with
    | error e => simp at hok
    | ok u =>
      refine ⟨⟨_, rfl⟩, ?_⟩
      exact List.mem_cons.mpr (Or.inr (List.mem_append.mpr
        (Or.inl (List.mem_append.mpr (Or.inr hwm)))))
  · intro tr fs' loaded mc mf mn sf hlen hdg hlook hsp hname
    have hrun : validate_ml_dga_asset inp = dgaFinish inp tr fs' mc mf mn := by
      simp only [validate_ml_dga_asset]
      rw [if_neg (by omega), hdg]
      simp only [dgaModelStage]
      rw [hlook]
      dsimp only
      rw [hsp]
    obtain ⟨rel, fn, herr⟩ :=
      ledgerCheck_name_error inp.ledger (sha256hex (utf8Encode mc)) mf hname
    refine ⟨rel, fn, ?_⟩
    rw [hrun]
    simp only [dgaFinish]
    rcases hlc : ledgerCheck (sha256hex (utf8Encode mc)) mf inp.ledger with ⟨ltr, lres⟩
    rw [hlc] at herr
    cases lres with
    | error e =>
      simp at herr
      rw [herr]
    | ok u => simp at herr

/-- Witness for C4 at two concrete bundles: one whose ledger holds the model's
canonical hash under another file name (run succeeds with the warning), one
whose ledger holds an entry with the model's exact file name (run fails with
the identity conflict). -/
theorem C4_ledger_cross_check_witness :
    ((∃ res, (validate_ml_dga_asset
        ⟨"d", [("a_model.json", ['3'])], [("model", "*model*")],
         [("rel-1", [("other.json", sha256hex (utf8Encode ['3']))])], "t"⟩).result =
        .ok res) ∧
      Event.warn (hashWarnMsg "a_model.json" "rel-1" "other.json"
          (sha256hex (utf8Encode ['3']))) ∈
        (validate_ml_dga_asset
          ⟨"d", [("a_model.json", ['3'])], [("model", "*model*")],
           [("rel-1", [("other.json", sha256hex (utf8Encode ['3']))])], "t"⟩).trace) ∧
    (∃ rel fn, (validate_ml_dga_asset
        ⟨"d", [("a_model.json", ['3'])], [("model", "*model*")],
         [("rel-1", [("a_model.json", "x")])], "t"⟩).result =
      .error (.client (nameErrMsg "a_model.json" rel fn))) :=
  ⟨(C4_ledger_cross_check
      ⟨"d", [("a_model.json", ['3'])], [("model", "*model*")],
       [("rel-1", [("other.json", sha256hex (utf8Encode ['3']))])], "t"⟩).1
    [Event.write "a_model.json" ['3']] [("a_model.json", ['3'])]
    [("model", (['3'], "a_model.json"))] ['3'] "a_model.json" "a".toList "model.json".toList
    "rel-1" [("other.json", sha256hex (utf8Encode ['3']))] "other.json"
    (sha256hex (utf8Encode ['3']))
    (by decide) (by rfl) (by rfl) (by decide) (by decide)
    (List.mem_cons_self _ _) (List.mem_cons_self _ _) rfl,
   (C4_ledger_cross_check
      ⟨"d", [("a_model.json", ['3'])], [("model", "*model*")],
       [("rel-1", [("a_model.json", "x")])], "t"⟩).2
    [Event.write "a_model.json" ['3']] [("a_model.json", ['3'])]
    [("model", (['3'], "a_model.json"))] ['3'] "a_model.json" "a".toList "model.json".toList
    (by decide) (by rfl) (by rfl) (by decide)
    ⟨("rel-1", [("a_model.json", "x")]), List.mem_cons_self _ _,
     ("a_model.json", "x"), List.mem_cons_self _ _, rfl⟩⟩

theorem pyRsplitOnce_none_iff : ∀ (s : List Char) (c : Char),
    pyRsplitOnce s c = none ↔ c ∉ s := by
  intro s
  induction s with
  | nil => intro c; simp [pyRsplitOnce]
  | cons x xs ih =>
    intro c
    rw [pyRsplitOnce]
    rcases h2 : pyRsplitOnce xs c with - | ⟨p, sf⟩
    · have hnx : c ∉ xs := (ih c).mp h2
      by_cases hx : x = c
      · rw [if_pos hx]
        simp [hx]
      · rw [if_neg hx]
        simp [List.mem_cons]
        exact ⟨fun hc => hx hc.symm, hnx⟩
    · have hmem : c ∈ xs := by
        by_contra hc
        rw [← ih c] at hc
        rw [h2] at hc
        simp at hc
      simp [List.mem_cons, hmem]

theorem pyRsplitOnce_some_spec : ∀ (s : List Char) (c : Char) (pre suf : List Char),
    pyRsplitOnce s c = some (pre, suf) → s = pre ++ c :: suf ∧ c ∉ suf := by
  intro s
  induction s with
  | nil => intro c pre suf h; simp [pyRsplitOnce] at h
  | cons x xs ih =>
    intro c pre suf h
    rw [pyRsplitOnce] at h
    rcases h2 : pyRsplitOnce xs c with - | ⟨p, sf⟩ <;> rw [h2] at h
    · by_cases hx : x = c
      · rw [if_pos hx] at h
        simp at h
        obtain ⟨rfl, rfl⟩ := h
        refine ⟨?_, (pyRsplitOnce_none_iff xs c).mp h2⟩
        rw [hx]
        rfl
      · rw [if_neg hx] at h
        simp at h
    · simp at h
      obtain ⟨rfl, rfl⟩ := h
      obtain ⟨hxs, hns⟩ := ih c p sf h2
      exact ⟨by rw [List.cons_append, ← hxs], hns⟩

/-- C10: deriving the model's logical name uses
`model_filename.rsplit("_", maxsplit=1)` unpacked into two variables, so it
requires an underscore in the file name: with one, the derived name is exactly
the portion before the last underscore; with none, the run dies with an
unhandled `ValueError` rather than a descriptive validation error. -/
theorem C10_model_name_underscore :
    (∀ (s : List Char), '_' ∈ s → ∃ pre suf, pyRsplitOnce s '_' = some (pre, suf) ∧
      s = pre ++ '_' :: suf ∧ '_' ∉ suf) ∧
    (∀ (s : List Char), '_' ∉ s → pyRsplitOnce s '_' = none) ∧
    (∀ (inp : DgaInput) (tr : List Event) (fs' : FS) (loaded : Loaded) (mc : List Char)
      (mf : String),
      inp.files.length ≤ 5 →
      dgaLoop inp.patterns inp.files = (tr, fs', .ok loaded) →
      List.lookup "model" loaded = some (mc, mf) →
      '_' ∉ mf.toList →
      (validate_ml_dga_asset inp).result =
        .error (.crash "ValueError: not enough values to unpack (expected 2, got 1)")) := by
  refine ⟨?_, ?_, ?_⟩
  · intro s hs
    rcases h : pyRsplitOnce s '_' with - | ⟨pre, suf⟩
    · exact absurd ((pyRsplitOnce_none_iff s '_').mp h) (by simp [hs])
    · obtain ⟨heq, hns⟩ := pyRsplitOnce_some_spec s '_' pre suf h
      exact ⟨pre, suf, rfl, heq, hns⟩
  · intro s hs
    exact (pyRsplitOnce_none_iff s '_').mpr hs
  · intro inp tr fs' loaded mc mf hlen hdg hlook hnu
    have hsp : pyRsplitOnce mf.toList '_' = none := (pyRsplitOnce_none_iff _ _).mpr hnu
    simp only [validate_ml_dga_asset]
    rw [if_neg (by omega), hdg]
    simp only [dgaModelStage]
    rw [hlook]
    dsimp only
    rw [hsp]

/-- Witness for C10: `a_b_c` splits into `a_b` and `c`, and a concrete run
whose model file is named `model.json` (no underscore) dies with the
`ValueError`. -/
theorem C10_model_name_underscore_witness :
    (∃ pre suf, pyRsplitOnce "a_b_c".toList '_' = some (pre, suf) ∧
      "a_b_c".toList = pre ++ '_' :: suf ∧ '_' ∉ suf) ∧
    (validate_ml_dga_asset
        ⟨"d", [("model.json", ['0'])], [("model", "*model*")], [], "t"⟩).result =
      .error (.crash "ValueError: not enough values to unpack (expected 2, got 1)") :=
  ⟨C10_model_name_underscore.1 "a_b_c".toList (by decide),
   C10_model_name_underscore.2.2
    ⟨"d", [("model.json", ['0'])], [("model", "*model*")], [], "t"⟩
    [Event.write "model.json" ['0']] [("model.json", ['0'])]
    [("model", (['0'], "model.json"))] ['0'] "model.json"
    (by decide) (by rfl) (by rfl) (by decide)⟩

/-- C3: the canonical content hash is deterministic over logical content: two
texts that parse to the same JSON data (equal once every object's keys are
recursively sorted — Python dict equality, whatever the textual key order or
whitespace) canonicalize to bytes with the same SHA-256 hex digest. -/
theorem C3_canonical_hash_deterministic (s1 s2 : List Char) (v1 v2 : Json)
    (h1 : parseTop s1 = some v1) (h2 : parseTop s2 = some v2)
    (hsame : deepSort v1 = deepSort v2) :
    ∃ c1 c2, canon s1 = some c1 ∧ canon s2 = some c2 ∧
      sha256hex (utf8Encode c1) = sha256hex (utf8Encode c2) := by
  refine ⟨dumpsSorted v1, dumpsSorted v2, by simp [canon, h1], by simp [canon, h2], ?_⟩
  have heq : dumpsSorted v1 = dumpsSorted v2 := by
    simp only [dumpsSorted]
    rw [hsame]
  rw [heq]

/-- Witness for C3 at two concrete texts holding the same data with different
key order and whitespace. -/
theorem C3_canonical_hash_deterministic_witness :
    ∃ c1 c2,
      canon "\x7b\"a\": 1, \"b\": 2\x7d".toList = some c1 ∧
      canon " \x7b  \"b\" :2,\"a\"  : 1 \x7d ".toList = some c2 ∧
      sha256hex (utf8Encode c1) = sha256hex (utf8Encode c2) :=
  C3_canonical_hash_deterministic _ _
    (Json.obj [("a".toList, Json.num 1), ("b".toList, Json.num 2)])
    (Json.obj [("b".toList, Json.num 2), ("a".toList, Json.num 1)])
    (by decide) (by decide) (by decide)

theorem toNat_ofNat_valid {n : Nat} (h : n.isValidChar) : (Char.ofNat n).toNat = n := by
  rw [Char.ofNat, dif_pos h]
  rfl

theorem isValidChar_of_cases {n : Nat} (h : n < 55296 ∨ (57344 ≤ n ∧ n < 1114112)) :
    n.isValidChar := by
  rcases h with h | ⟨h1, h2⟩
  · exact Or.inl h
  · exact Or.inr ⟨h1, h2⟩

theorem char_valid_cases (c : Char) : c.toNat < 55296 ∨ (57344 ≤ c.toNat ∧ c.toNat < 1114112) := by
  rcases c.valid with h | ⟨h1, h2⟩
  · exact Or.inl h
  · exact Or.inr ⟨h1, h2⟩

theorem char_eq_iff_toNat {c d : Char} : c = d ↔ c.toNat = d.toNat := by
  constructor
  · rintro rfl
    rfl
  · intro h
    have h2 := congrArg Char.ofNat h
    rwa [Char.ofNat_toNat, Char.ofNat_toNat] at h2

theorem decodeHexDigit_hexDigitChar {d : Nat} (h : d < 16) :
    decodeHexDigit (hexDigitChar d) = some d := by
  by_cases h10 : d < 10
  · have ht : (hexDigitChar d).toNat = 48 + d := by
      rw [hexDigitChar, if_pos h10]
      exact toNat_ofNat_valid (isValidChar_of_cases (Or.inl (by omega)))
    rw [decodeHexDigit, ht, if_pos (by omega)]
    congr 1
    omega
  · have ht : (hexDigitChar d).toNat = 87 + d := by
      rw [hexDigitChar, if_neg h10]
      exact toNat_ofNat_valid (isValidChar_of_cases (Or.inl (by omega)))
    rw [decodeHexDigit, ht, if_neg (by omega), if_pos (by omega)]
    congr 1
    omega

theorem decodeHex4n_hex4 {n : Nat} (h : n < 65536) :
    decodeHex4n (hexDigitChar (n / 4096 % 16)) (hexDigitChar (n / 256 % 16))
      (hexDigitChar (n / 16 % 16)) (hexDigitChar (n % 16)) = some n := by
  rw [decodeHex4n,
      decodeHexDigit_hexDigitChar (Nat.mod_lt _ (by norm_num)),
      decodeHexDigit_hexDigitChar (Nat.mod_lt _ (by norm_num)),
      decodeHexDigit_hexDigitChar (Nat.mod_lt _ (by norm_num)),
      decodeHexDigit_hexDigitChar (Nat.mod_lt _ (by norm_num))]
  dsimp only
  congr 1
  omega

theorem parseStrBody_escChar (c : Char) (tail : List Char) :
    parseStrBody (escChar c ++ tail) =
      (parseStrBody tail).map (fun p => (c :: p.1, p.2)) := by
  rw [escChar]
  split_ifs with h1 h2 h3 h4 h5 h6 h7 h8 h9
  · subst h1
    simp [parseStrBody, parseEsc, escDecode]
  · subst h2
    simp [parseStrBody, parseEsc, escDecode]
  · subst h3
    simp [parseStrBody, parseEsc, escDecode]
  · subst h4
    simp [parseStrBody, parseEsc, escDecode]
  · subst h5
    simp [parseStrBody, parseEsc, escDecode]
  · have hc : c = Char.ofNat 8 := by
      rw [char_eq_iff_toNat, toNat_ofNat_valid (isValidChar_of_cases (Or.inl (by omega)))]
      exact h6
    subst hc
    simp [parseStrBody, parseEsc, escDecode]
  · have hc : c = Char.ofNat 12 := by
      rw [char_eq_iff_toNat, toNat_ofNat_valid (isValidChar_of_cases (Or.inl (by omega)))]
      exact h7
    subst hc
    simp [parseStrBody, parseEsc, escDecode]
  · show parseStrBody (c :: tail) = _
    rw [parseStrBody, if_neg h1, if_neg h2, if_neg (by omega : ¬ c.toNat < 32)]
  · -- basic-plane escape
    have hval : c.toNat < 55296 ∨ (57344 ≤ c.toNat ∧ c.toNat < 1114112) := char_valid_cases c
    rw [hex4]
    simp only [List.cons_append, List.nil_append]
    rw [parseStrBody, if_neg (by decide), if_pos rfl, parseEsc, if_pos rfl, parseHexEsc,
        decodeHex4n_hex4 h9]
    dsimp only
    rw [if_neg (by omega), if_neg (by omega), Char.ofNat_toNat]
  · -- surrogate pair
    have hval : c.toNat < 55296 ∨ (57344 ≤ c.toNat ∧ c.toNat < 1114112) := char_valid_cases c
    have hub : c.toNat < 1114112 := by omega
    have hhi : 55296 + (c.toNat - 65536) / 1024 < 65536 := by omega
    have hlo : 56320 + (c.toNat - 65536) % 1024 < 65536 := by
      have := Nat.mod_lt (c.toNat - 65536) (show 0 < 1024 by norm_num)
      omega
    rw [hex4, hex4]
    simp only [List.cons_append, List.nil_append, List.append_assoc]
    rw [parseStrBody, if_neg (by decide), if_pos rfl, parseEsc, if_pos rfl, parseHexEsc,
        decodeHex4n_hex4 hhi]
    dsimp only
    rw [if_pos (by constructor <;> omega)]
    rw [parseLowSurrogate, if_pos (by constructor <;> rfl), decodeHex4n_hex4 hlo]
    dsimp only
    have hdiv : 1024 * ((c.toNat - 65536) / 1024) + (c.toNat - 65536) % 1024 =
        c.toNat - 65536 := Nat.div_add_mod _ _
    rw [if_pos (by
      constructor
      · omega
      · have := Nat.mod_lt (c.toNat - 65536) (show 0 < 1024 by norm_num)
        omega)]
    have hre : 65536 + (55296 + (c.toNat - 65536) / 1024 - 55296) * 1024 +
        (56320 + (c.toNat - 65536) % 1024 - 56320) = c.toNat := by omega
    rw [hre, Char.ofNat_toNat]

theorem parseStrBody_escList : ∀ (s rest : List Char),
    parseStrBody (escList s ++ '"' :: rest) = some (s, rest) := by
  intro s
  induction s with
  | nil => intro rest; simp [escList, parseStrBody]
  | cons c cs ih =>
    intro rest
    rw [escList, List.append_assoc, parseStrBody_escChar, ih]
    rfl


theorem digitChar_toNat {n : Nat} (h : n < 10) : (digitChar n).toNat = 48 + n :=
  toNat_ofNat_valid (isValidChar_of_cases (Or.inl (by omega)))

theorem digitsVal_append_singleton (ds : List Char) (d : Char) :
    digitsVal (ds ++ [d]) = digitsVal ds * 10 + (d.toNat - 48) := by
  simp [digitsVal, List.foldl_append]

theorem natChars_spec : ∀ (f n : Nat), n < 10 ^ f → 0 < f →
    natChars f n ≠ [] ∧ (∀ c ∈ natChars f n, isDigitChar c = true) ∧
    digitsVal (natChars f n) = n ∧ (0 < n → (natChars f n).head? ≠ some '0') := by
  intro f
  induction f with
  | zero => intro n _ h0; omega
  | succ k ih =>
    intro n hn _
    by_cases h10 : n < 10
    · rw [natChars, if_pos h10]
      refine ⟨by simp, ?_, ?_, ?_⟩
      · intro c hc
        simp at hc
        subst hc
        simp [isDigitChar, digitChar_toNat h10]
        omega
      · simp [digitsVal, digitChar_toNat h10]
      · intro hpos hbad
        simp at hbad
        rw [char_eq_iff_toNat] at hbad
        rw [digitChar_toNat h10] at hbad
        simp at hbad
        omega
    · rw [natChars, if_neg h10]
      have hk : 0 < k := by
        by_contra hk0
        have : k = 0 := by omega
        subst this
        simp at hn
        omega
      have hdiv : n / 10 < 10 ^ k := by
        rw [Nat.div_lt_iff_lt_mul (by norm_num)]
        calc n < 10 ^ (k + 1) := hn
          _ = 10 ^ k * 10 := by ring
      obtain ⟨hne, hdig, hval, hzero⟩ := ih (n / 10) hdiv hk
      have hmod : n % 10 < 10 := Nat.mod_lt _ (by norm_num)
      refine ⟨by simp, ?_, ?_, ?_⟩
      · intro c hc
        rcases List.mem_append.mp hc with hc | hc
        · exact hdig c hc
        · simp at hc
          subst hc
          simp [isDigitChar, digitChar_toNat hmod]
          omega
      · rw [digitsVal_append_singleton, hval, digitChar_toNat hmod]
        omega
      · intro _
        cases hns : natChars k (n / 10) with
        | nil => exact absurd hns hne
        | cons a t =>
          have : 0 < n / 10 := by
            have : 10 ≤ n := by omega
            omega
          have ha := hzero this
          rw [hns] at ha
          simp at ha
          simp [hns]
          intro hbad
          exact absurd hbad ha

theorem takeWhile_append_of_all {p : Char → Bool} :
    ∀ (ds rest : List Char), (∀ c ∈ ds, p c = true) →
    (ds ++ rest).takeWhile p = ds ++ rest.takeWhile p := by
  intro ds
  induction ds with
  | nil => simp
  | cons d t ih =>
    intro rest h
    simp only [List.cons_append, List.takeWhile_cons, h d (by simp)]
    rw [ih rest (fun c hc => h c (by simp [hc]))]
    simp

theorem nat_lt_ten_pow (n : Nat) : n < 10 ^ (n + 1) := by
  calc n < 2 ^ n := Nat.lt_two_pow n
    _ ≤ 10 ^ n := Nat.pow_le_pow_left (by norm_num) n
    _ ≤ 10 ^ (n + 1) := Nat.pow_le_pow_right (by norm_num) (by omega)

theorem parseUInt_natChars (n : Nat) (rest : List Char) (hd : numDelimOk rest = true) :
    parseUInt (natChars (n + 1) n ++ rest) = some (n, rest) := by
  obtain ⟨hne, hdig, hval, hzero⟩ := natChars_spec (n + 1) n (nat_lt_ten_pow n) (by omega)
  have htw : (natChars (n + 1) n ++ rest).takeWhile isDigitChar = natChars (n + 1) n := by
    rw [takeWhile_append_of_all _ _ hdig]
    cases rest with
    | nil => simp
    | cons r rt =>
      simp [numDelimOk] at hd
      simp [List.takeWhile_cons, hd.1]
  have h2 : ¬(1 < (natChars (n + 1) n).length ∧ (natChars (n + 1) n).head? = some '0') := by
    rcases Nat.eq_zero_or_pos n with h0 | h0
    · subst h0
      have he : natChars 1 0 = ['0'] := by decide
      rw [he]
      simp
    · intro hand
      exact hzero h0 hand.2
  simp only [parseUInt, htw]
  rw [if_neg hne, if_neg h2, List.drop_left]
  cases rest with
  | nil => simp [hval]
  | cons r rt =>
    simp [numDelimOk] at hd
    have hno : ¬(r = '.' ∨ r = 'e' ∨ r = 'E') := by
      intro h; rcases h with h | h | h <;> simp [h] at hd
    dsimp only
    rw [if_neg hno, hval]

theorem parseIntFrom_intChars (n : Int) (rest : List Char) (hd : numDelimOk rest = true) :
    parseIntFrom (intChars n ++ rest) = some (n, rest) := by
  rw [intChars]
  split_ifs with hneg
  · rw [List.cons_append, parseIntFrom, parseUInt_natChars _ _ hd]
    have hab : -((n.natAbs : Int)) = n := by omega
    exact congrArg (fun z => some (z, rest)) hab
  · obtain ⟨hne, hdig, _, _⟩ :=
      natChars_spec (n.toNat + 1) n.toNat (nat_lt_ten_pow n.toNat) (by omega)
    cases hns : natChars (n.toNat + 1) n.toNat with
    | nil => exact absurd hns hne
    | cons d ds =>
      have hdd : isDigitChar d = true := hdig d (by simp [hns])
      have hdm : d ≠ '-' := by
        intro h
        subst h
        simp [isDigitChar] at hdd
      rw [List.cons_append]
      unfold parseIntFrom
      split
      · rename_i heq
        exact absurd (List.head_eq_of_cons_eq heq.symm).symm hdm
      · have hre : d :: (ds ++ rest) = natChars (n.toNat + 1) n.toNat ++ rest := by
          rw [hns]
          rfl
        rw [hre, parseUInt_natChars _ _ hd]
        have htn : ((n.toNat : Int)) = n := by omega
        exact congrArg (fun z => some (z, rest)) htn

theorem skipWs_not_ws {c : Char} (h : isWsChar c = false) (cs : List Char) :
    skipWs (c :: cs) = c :: cs := by
  simp [skipWs, h]

theorem skipWs_ws {c : Char} (h : isWsChar c = true) (cs : List Char) :
    skipWs (c :: cs) = skipWs cs := by
  simp [skipWs, h]

theorem parseVal_ws {c : Char} (h : isWsChar c = true) (f : Nat) (s : List Char) :
    parseVal f (c :: s) = parseVal f s := by
  cases f with
  | zero => rfl
  | succ g =>
    rw [parseVal, parseVal, skipWs_ws h]

theorem parseMembers_ws {c : Char} (h : isWsChar c = true) (f : Nat) (s : List Char)
    (acc : List (List Char × Json)) :
    parseMembers f (c :: s) acc = parseMembers f s acc := by
  cases f with
  | zero => rfl
  | succ g =>
    rw [parseMembers, parseMembers, skipWs_ws h]

theorem digit_not_special {d : Char} (h : isDigitChar d = true) :
    isWsChar d = false ∧ d ≠ ']' ∧ d ≠ '-' := by
  refine ⟨?_, ?_, ?_⟩
  · cases hw : isWsChar d with
    | false => rfl
    | true =>
      simp [isWsChar] at hw
      rcases hw with ((he | he) | he) | he <;> (subst he; exact absurd h (by decide))
  · intro he; subst he; exact absurd h (by decide)
  · intro he; subst he; exact absurd h (by decide)

theorem serialize_head (v : Json) :
    ∃ c t, serialize v = c :: t ∧ isWsChar c = false ∧ c ≠ ']' := by
  cases v with
  | null => exact ⟨'n', "ull".toList, by decide, by decide, by decide⟩
  | bool b =>
    cases b with
    | true => exact ⟨'t', "rue".toList, by decide, by decide, by decide⟩
    | false => exact ⟨'f', "alse".toList, by decide, by decide, by decide⟩
  | num n =>
    simp only [serialize]
    rw [intChars]
    split_ifs with hneg
    · exact ⟨'-', _, rfl, by decide, by decide⟩
    · obtain ⟨hne, hdig, _, _⟩ :=
        natChars_spec (n.toNat + 1) n.toNat (nat_lt_ten_pow n.toNat) (by omega)
      cases hns : natChars (n.toNat + 1) n.toNat with
      | nil => exact absurd hns hne
      | cons d ds =>
        obtain ⟨hw, hr, _⟩ := digit_not_special (hdig d (by simp [hns]))
        exact ⟨d, ds, rfl, hw, hr⟩
  | str s =>
    simp only [serialize, serStr]
    exact ⟨'"', _, rfl, by decide, by decide⟩
  | arr xs =>
    cases xs with
    | nil => exact ⟨'[', [']'], by decide, by decide, by decide⟩
    | cons x xs => simp only [serialize]; exact ⟨'[', _, rfl, by decide, by decide⟩
  | obj kvs =>
    cases kvs with
    | nil => exact ⟨'{', ['}'], rfl, by decide, by decide⟩
    | cons p kvs => simp only [serialize]; exact ⟨'{', _, rfl, by decide, by decide⟩

theorem serArrTail_delim (xs : List Json) (rest : List Char) :
    numDelimOk (serArrTail xs ++ ']' :: rest) = true := by
  cases xs with
  | nil => simp [serArrTail, numDelimOk, isDigitChar]
  | cons y ys => simp [serArrTail, numDelimOk, isDigitChar]

theorem serObjTail_delim (kvs : List (List Char × Json)) (rest : List Char) :
    numDelimOk (serObjTail kvs ++ '}' :: rest) = true := by
  cases kvs with
  | nil => simp [serObjTail, numDelimOk, isDigitChar]
  | cons p ps => simp [serObjTail, numDelimOk, isDigitChar]

theorem keysNodup_append_head :
    ∀ (acc : List (List Char × Json)) (k : List Char) (v : Json)
      (kvs : List (List Char × Json)),
    keysNodup (acc ++ (k, v) :: kvs) = true → acc.any (fun p => p.1 = k) = false := by
  intro acc
  induction acc with
  | nil => intro k v kvs _; rfl
  | cons q acc' ih =>
    intro k v kvs h
    rw [List.cons_append] at h
    obtain ⟨k', v'⟩ := q
    rw [keysNodup] at h
    simp only [Bool.and_eq_true, Bool.not_eq_true'] at h
    obtain ⟨hnot, hrec⟩ := h
    rw [List.any_eq_false] at hnot
    simp only [List.any_cons, Bool.or_eq_false_iff]
    constructor
    · have hmem : ((k, v) : List Char × Json) ∈ acc' ++ (k, v) :: kvs := by simp
      have := hnot _ hmem
      simp at this ⊢
      intro he
      exact this he.symm
    · exact ih k v kvs hrec

theorem dictInsert_fresh (acc : List (List Char × Json)) (k : List Char) (v : Json)
    (h : acc.any (fun p => p.1 = k) = false) :
    dictInsert acc k v = acc ++ [(k, v)] := by
  rw [dictInsert, if_neg]
  simp [h]



theorem jweight_pos (v : Json) : 1 ≤ jweight v := by
  cases v <;> simp [jweight] <;> omega

mutual

theorem jweight_le : ∀ v : Json, jweight v ≤ (serialize v).length + 1
  | .null => by simp [jweight]
  | .bool b => by cases b <;> simp [jweight]
  | .num n => by simp [jweight]
  | .str s => by simp [jweight]
  | .arr [] => by simp [jweight, jweightList]
  | .arr (x :: xs) => by
      have h := jweightList_le (x :: xs)
      simp only [jweight, serialize, List.length_cons, List.length_append]
      simp only [jweightList, List.length_cons, serArrTail, List.length_append] at h ⊢
      omega
  | .obj [] => by simp [jweight, jweightKVs]
  | .obj (p :: kvs) => by
      have h := jweightKVs_le (p :: kvs)
      simp only [jweight, serialize, List.length_cons, List.length_append]
      simp only [jweightKVs, List.length_cons, serObjTail, List.length_append] at h ⊢
      omega

theorem jweightList_le : ∀ xs : List Json, jweightList xs + xs.length ≤ (serArrTail xs).length
  | [] => by simp [jweightList, serArrTail]
  | x :: xs => by
      have h1 := jweight_le x
      have h2 := jweightList_le xs
      simp only [jweightList, serArrTail, List.length_cons, List.length_append]
      omega

theorem jweightKVs_le :
    ∀ kvs : List (List Char × Json), jweightKVs kvs + kvs.length ≤ (serObjTail kvs).length
  | [] => by simp [jweightKVs, serObjTail]
  | p :: kvs => by
      have h1 := jweight_le p.2
      have h2 := jweightKVs_le kvs
      simp only [jweightKVs, serObjTail, List.length_cons, List.length_append]
      omega

end

theorem intChars_head (n : Int) :
    ∃ d ds, intChars n = d :: ds ∧ (d = '-' ∨ isDigitChar d = true) := by
  rw [intChars]
  split_ifs with hneg
  · exact ⟨'-', _, rfl, Or.inl rfl⟩
  · obtain ⟨hne, hdig, _, _⟩ :=
      natChars_spec (n.toNat + 1) n.toNat (nat_lt_ten_pow n.toNat) (by omega)
    cases hns : natChars (n.toNat + 1) n.toNat with
    | nil => exact absurd hns hne
    | cons d ds => exact ⟨d, ds, rfl, Or.inr (hdig d (by simp [hns]))⟩

theorem numHead_props {d : Char} (h : d = '-' ∨ isDigitChar d = true) :
    isWsChar d = false ∧ d ≠ 'n' ∧ d ≠ 't' ∧ d ≠ 'f' ∧ d ≠ '"' ∧ d ≠ '[' ∧ d ≠ '{' := by
  rcases h with h | h
  · subst h
    exact ⟨by decide, by decide, by decide, by decide, by decide, by decide, by decide⟩
  · obtain ⟨hw, _, _⟩ := digit_not_special h
    refine ⟨hw, ?_, ?_, ?_, ?_, ?_, ?_⟩ <;>
      (intro he; subst he; exact absurd h (by decide))

theorem parseElems_ws {c : Char} (h : isWsChar c = true) (f : Nat) (s : List Char) :
    parseElems f (c :: s) = parseElems f s := by
  cases f with
  | zero => rfl
  | succ g => rw [parseElems, parseElems, parseVal_ws h]

mutual

theorem parseVal_serialize : ∀ (v : Json) (fuel : Nat) (rest : List Char),
    noDupKeys v = true → numDelimOk rest = true → jweight v ≤ fuel →
    parseVal fuel (serialize v ++ rest) = some (v, rest)
  | .null, fuel, rest, _, _, hfuel => by
    obtain ⟨f, rfl⟩ : ∃ f, fuel = f + 1 := ⟨fuel - 1, by simp [jweight] at hfuel; omega⟩
    have hs : serialize Json.null ++ rest = 'n' :: 'u' :: 'l' :: 'l' :: rest := rfl
    rw [hs, parseVal, skipWs_not_ws (by decide)]
    rfl
  | .bool true, fuel, rest, _, _, hfuel => by
    obtain ⟨f, rfl⟩ : ∃ f, fuel = f + 1 := ⟨fuel - 1, by simp [jweight] at hfuel; omega⟩
    have hs : serialize (Json.bool true) ++ rest = 't' :: 'r' :: 'u' :: 'e' :: rest := rfl
    rw [hs, parseVal, skipWs_not_ws (by decide)]
    rfl
  | .bool false, fuel, rest, _, _, hfuel => by
    obtain ⟨f, rfl⟩ : ∃ f, fuel = f + 1 := ⟨fuel - 1, by simp [jweight] at hfuel; omega⟩
    have hs : serialize (Json.bool false) ++ rest
        = 'f' :: 'a' :: 'l' :: 's' :: 'e' :: rest := rfl
    rw [hs, parseVal, skipWs_not_ws (by decide)]
    rfl
  | .num n, fuel, rest, _, hdelim, hfuel => by
    obtain ⟨f, rfl⟩ : ∃ f, fuel = f + 1 := ⟨fuel - 1, by simp [jweight] at hfuel; omega⟩
    obtain ⟨d, ds, hds, hP⟩ := intChars_head n
    obtain ⟨hw, h1, h2, h3, h4, h5, h6⟩ := numHead_props hP
    have hs : serialize (Json.num n) ++ rest = d :: (ds ++ rest) := by
      simp only [serialize]
      rw [hds, List.cons_append]
    rw [hs, parseVal, skipWs_not_ws hw]
    dsimp only
    rw [if_neg h1, if_neg h2, if_neg h3, if_neg h4, if_neg h5, if_neg h6, if_pos hP]
    have hre : d :: (ds ++ rest) = intChars n ++ rest := by
      rw [hds, List.cons_append]
    rw [hre, parseIntFrom_intChars n rest hdelim]
    rfl
  | .str s, fuel, rest, _, _, hfuel => by
    obtain ⟨f, rfl⟩ : ∃ f, fuel = f + 1 := ⟨fuel - 1, by simp [jweight] at hfuel; omega⟩
    have hs : serialize (Json.str s) ++ rest = '"' :: (escList s ++ ('"' :: rest)) := by
      simp only [serialize, serStr, List.cons_append, List.append_assoc,
        List.singleton_append, List.nil_append]
    rw [hs, parseVal, skipWs_not_ws (by decide)]
    dsimp only
    rw [if_neg (by decide : ¬('"' = 'n')), if_neg (by decide : ¬('"' = 't')),
      if_neg (by decide : ¬('"' = 'f')), if_pos rfl]
    rw [parseStrBody_escList]
    rfl
  | .arr [], fuel, rest, _, _, hfuel => by
    obtain ⟨f, rfl⟩ : ∃ f, fuel = f + 1 := ⟨fuel - 1, by simp [jweight] at hfuel; omega⟩
    have hs : serialize (Json.arr []) ++ rest = '[' :: (']' :: rest) := rfl
    rw [hs, parseVal, skipWs_not_ws (by decide)]
    rfl
  | .arr (x :: xs), fuel, rest, hnd, _, hfuel => by
    obtain ⟨f, rfl⟩ : ∃ f, fuel = f + 1 := ⟨fuel - 1, by simp [jweight] at hfuel; omega⟩
    have hs : serialize (Json.arr (x :: xs)) ++ rest
        = '[' :: (serialize x ++ (serArrTail xs ++ (']' :: rest))) := by
      simp only [serialize, List.cons_append, List.append_assoc,
        List.singleton_append, List.nil_append]
    rw [hs, parseVal, skipWs_not_ws (by decide)]
    dsimp only
    rw [if_neg (by decide : ¬('[' = 'n')), if_neg (by decide : ¬('[' = 't')),
      if_neg (by decide : ¬('[' = 'f')), if_neg (by decide : ¬('[' = '"')), if_pos rfl]
    obtain ⟨c0, t0, hc0, hcw, hcr⟩ := serialize_head x
    rw [hc0, List.cons_append, skipWs_not_ws hcw]
    have hnd' : noDupKeysList (x :: xs) = true := by
      rw [noDupKeys] at hnd
      exact hnd
    have hfl : jweightList (x :: xs) + (x :: xs).length ≤ f := by
      rw [jweight] at hfuel
      omega
    split
    · rename_i r heq
      exfalso
      have he : c0 = ']' := by
        first
          | exact List.head_eq_of_cons_eq heq
          | exact (List.head_eq_of_cons_eq heq).symm
      exact absurd he hcr
    · have hre : c0 :: (t0 ++ (serArrTail xs ++ (']' :: rest)))
          = serialize x ++ (serArrTail xs ++ (']' :: rest)) := by
        rw [hc0, List.cons_append]
      rw [hre, parseElems_ser x xs f rest hnd' hfl]
      rfl
  | .obj [], fuel, rest, _, _, hfuel => by
    obtain ⟨f, rfl⟩ : ∃ f, fuel = f + 1 := ⟨fuel - 1, by simp [jweight] at hfuel; omega⟩
    have hs : serialize (Json.obj []) ++ rest = '{' :: ('}' :: rest) := rfl
    rw [hs, parseVal, skipWs_not_ws (by decide)]
    rfl
  | .obj ((k, v) :: kvs), fuel, rest, hnd, _, hfuel => by
    obtain ⟨f, rfl⟩ : ∃ f, fuel = f + 1 := ⟨fuel - 1, by simp [jweight] at hfuel; omega⟩
    have hs : serialize (Json.obj ((k, v) :: kvs)) ++ rest
        = '{' :: (serStr k ++ (':' :: (' ' :: (serialize v
            ++ (serObjTail kvs ++ ('}' :: rest)))))) := by
      simp only [serialize, List.cons_append, List.append_assoc,
        List.singleton_append, List.nil_append]
    rw [hs, parseVal, skipWs_not_ws (by decide)]
    dsimp only
    rw [if_neg (by decide : ¬('{' = 'n')), if_neg (by decide : ¬('{' = 't')),
      if_neg (by decide : ¬('{' = 'f')), if_neg (by decide : ¬('{' = '"')),
      if_neg (by decide : ¬('{' = '[')), if_pos rfl]
    rw [noDupKeys] at hnd
    simp only [Bool.and_eq_true] at hnd
    have hq : serStr k ++ (':' :: (' ' :: (serialize v ++ (serObjTail kvs ++ ('}' :: rest)))))
        = '"' :: ((escList k ++ ['"'])
            ++ (':' :: (' ' :: (serialize v ++ (serObjTail kvs ++ ('}' :: rest)))))) := by
      simp only [serStr, List.cons_append, List.append_assoc,
        List.singleton_append, List.nil_append]
    rw [hq, skipWs_not_ws (by decide)]
    have hfl : jweightKVs ((k, v) :: kvs) + ((k, v) :: kvs).length ≤ f := by
      rw [jweight] at hfuel
      simp only [List.length_cons] at hfuel ⊢
      omega
    split
    · rename_i r heq
      exfalso
      have he : ('"' : Char) = '}' := by
        first
          | exact List.head_eq_of_cons_eq heq
          | exact (List.head_eq_of_cons_eq heq).symm
      exact absurd he (by decide)
    · rw [← hq, parseMembers_ser k v kvs [] f rest hnd.2 hnd.1 hfl]
      rfl
termination_by v _ _ _ _ _ => jweight v
decreasing_by
  all_goals try simp only [jweight, jweightList, jweightKVs, List.length_cons]
  all_goals omega

theorem parseElems_ser : ∀ (x : Json) (xs : List Json) (fuel : Nat) (rest : List Char),
    noDupKeysList (x :: xs) = true →
    jweightList (x :: xs) + (x :: xs).length ≤ fuel →
    parseElems fuel (serialize x ++ (serArrTail xs ++ (']' :: rest))) = some (x :: xs, rest)
  | x, [], fuel, rest, hnd, hfuel => by
    simp only [jweightList, List.length_cons] at hfuel
    obtain ⟨f, rfl⟩ : ∃ f, fuel = f + 1 := ⟨fuel - 1, by have := jweight_pos x; omega⟩
    rw [noDupKeysList] at hnd
    simp only [Bool.and_eq_true] at hnd
    rw [parseElems]
    rw [parseVal_serialize x f (serArrTail [] ++ (']' :: rest)) hnd.1
      (serArrTail_delim [] rest) (by omega)]
    dsimp only
    simp only [serArrTail, List.nil_append]
    rw [skipWs_not_ws (by decide)]
    rfl
  | x, y :: ys, fuel, rest, hnd, hfuel => by
    simp only [jweightList, List.length_cons] at hfuel
    obtain ⟨f, rfl⟩ : ∃ f, fuel = f + 1 := ⟨fuel - 1, by have := jweight_pos x; omega⟩
    rw [noDupKeysList] at hnd
    simp only [Bool.and_eq_true] at hnd
    rw [parseElems]
    rw [parseVal_serialize x f (serArrTail (y :: ys) ++ (']' :: rest)) hnd.1
      (serArrTail_delim (y :: ys) rest) (by omega)]
    dsimp only
    simp only [serArrTail, List.cons_append, List.append_assoc,
      List.singleton_append, List.nil_append]
    rw [skipWs_not_ws (by decide)]
    have hfl : jweightList (y :: ys) + (y :: ys).length ≤ f := by
      have := jweight_pos x
      simp only [jweightList, List.length_cons] at hfuel ⊢
      omega
    split
    · rename_i r heq
      exfalso
      have he : (',' : Char) = ']' := by
        first
          | exact List.head_eq_of_cons_eq heq
          | exact (List.head_eq_of_cons_eq heq).symm
      exact absurd he (by decide)
    · rename_i r heq
      have ht : ' ' :: (serialize y ++ (serArrTail ys ++ (']' :: rest))) = r := by
        first
          | exact List.tail_eq_of_cons_eq heq
          | exact (List.tail_eq_of_cons_eq heq).symm
      rw [← ht, parseElems_ws (by decide), parseElems_ser y ys f rest hnd.2 hfl]
    · rename_i hne1 hne2
      exfalso
      exact hne2 (' ' :: (serialize y ++ (serArrTail ys ++ (']' :: rest)))) rfl
termination_by x xs _ _ _ _ => jweight x + jweightList xs + xs.length + 1
decreasing_by
  all_goals try simp only [jweight, jweightList, jweightKVs, List.length_cons]
  all_goals first
    | omega
    | (have hp := jweight_pos x; omega)

theorem parseMembers_ser : ∀ (k : List Char) (v : Json) (kvs : List (List Char × Json))
    (acc : List (List Char × Json)) (fuel : Nat) (rest : List Char),
    noDupKeysKVs ((k, v) :: kvs) = true →
    keysNodup (acc ++ (k, v) :: kvs) = true →
    jweightKVs ((k, v) :: kvs) + ((k, v) :: kvs).length ≤ fuel →
    parseMembers fuel
      (serStr k ++ (':' :: (' ' :: (serialize v ++ (serObjTail kvs ++ ('}' :: rest)))))) acc
      = some (acc ++ (k, v) :: kvs, rest)
  | k, v, [], acc, fuel, rest, hnd, hkeys, hfuel => by
    simp only [jweightKVs, List.length_cons] at hfuel
    obtain ⟨f, rfl⟩ : ∃ f, fuel = f + 1 := ⟨fuel - 1, by have := jweight_pos v; omega⟩
    rw [noDupKeysKVs] at hnd
    simp only [Bool.and_eq_true] at hnd
    have hs : serStr k ++ (':' :: (' ' :: (serialize v ++ (serObjTail [] ++ ('}' :: rest)))))
        = '"' :: (escList k ++ ('"' :: (':' :: (' ' :: (serialize v
            ++ (serObjTail [] ++ ('}' :: rest))))))) := by
      simp only [serStr, List.cons_append, List.append_assoc,
        List.singleton_append, List.nil_append]
    rw [hs, parseMembers, skipWs_not_ws (by decide)]
    split
    · rename_i cs heq
      have hcs : escList k ++ ('"' :: (':' :: (' ' :: (serialize v
          ++ (serObjTail [] ++ ('}' :: rest)))))) = cs := by
        first
          | exact List.tail_eq_of_cons_eq heq
          | exact (List.tail_eq_of_cons_eq heq).symm
      rw [← hcs, parseStrBody_escList]
      dsimp only
      rw [skipWs_not_ws (by decide)]
      have hfr : acc.any (fun p => p.1 = k) = false := keysNodup_append_head acc k v [] hkeys
      split
      · rename_i r' heq2
        have hr' : ' ' :: (serialize v ++ (serObjTail [] ++ ('}' :: rest))) = r' := by
          first
            | exact List.tail_eq_of_cons_eq heq2
            | exact (List.tail_eq_of_cons_eq heq2).symm
        rw [← hr', parseVal_ws (by decide)]
        rw [parseVal_serialize v f (serObjTail [] ++ ('}' :: rest)) hnd.1
          (serObjTail_delim [] rest) (by omega)]
        dsimp only
        simp only [serObjTail, List.nil_append]
        rw [skipWs_not_ws (by decide)]
        split
        · rename_i r3 heq3
          have hr3 : rest = r3 := by
            first
              | exact List.tail_eq_of_cons_eq heq3
              | exact (List.tail_eq_of_cons_eq heq3).symm
          rw [← hr3, dictInsert_fresh acc k v hfr]
        · rename_i r3 heq3
          exfalso
          have he : ('}' : Char) = ',' := by
            first
              | exact List.head_eq_of_cons_eq heq3
              | exact (List.head_eq_of_cons_eq heq3).symm
          exact absurd he (by decide)
        · rename_i hne1 hne2
          exact absurd rfl (hne1 rest)
      · rename_i hne
        exact absurd rfl (hne (' ' :: (serialize v ++ (serObjTail [] ++ ('}' :: rest)))))
    · rename_i hne
      exact absurd rfl (hne (escList k ++ ('"' :: (':' :: (' ' :: (serialize v
        ++ (serObjTail [] ++ ('}' :: rest))))))))
  | k, v, (k2, v2) :: kvs, acc, fuel, rest, hnd, hkeys, hfuel => by
    simp only [jweightKVs, List.length_cons] at hfuel
    obtain ⟨f, rfl⟩ : ∃ f, fuel = f + 1 := ⟨fuel - 1, by have := jweight_pos v; omega⟩
    rw [noDupKeysKVs] at hnd
    simp only [Bool.and_eq_true] at hnd
    have hs : serStr k ++ (':' :: (' ' :: (serialize v
        ++ (serObjTail ((k2, v2) :: kvs) ++ ('}' :: rest)))))
        = '"' :: (escList k ++ ('"' :: (':' :: (' ' :: (serialize v
            ++ (serObjTail ((k2, v2) :: kvs) ++ ('}' :: rest))))))) := by
      simp only [serStr, List.cons_append, List.append_assoc,
        List.singleton_append, List.nil_append]
    rw [hs, parseMembers, skipWs_not_ws (by decide)]
    split
    · rename_i cs heq
      have hcs : escList k ++ ('"' :: (':' :: (' ' :: (serialize v
          ++ (serObjTail ((k2, v2) :: kvs) ++ ('}' :: rest)))))) = cs := by
        first
          | exact List.tail_eq_of_cons_eq heq
          | exact (List.tail_eq_of_cons_eq heq).symm
      rw [← hcs, parseStrBody_escList]
      dsimp only
      rw [skipWs_not_ws (by decide)]
      have hfr : acc.any (fun p => p.1 = k) = false :=
        keysNodup_append_head acc k v ((k2, v2) :: kvs) hkeys
      split
      · rename_i r' heq2
        have hr' : ' ' :: (serialize v ++ (serObjTail ((k2, v2) :: kvs) ++ ('}' :: rest))) = r' := by
          first
            | exact List.tail_eq_of_cons_eq heq2
            | exact (List.tail_eq_of_cons_eq heq2).symm
        rw [← hr', parseVal_ws (by decide)]
        rw [parseVal_serialize v f (serObjTail ((k2, v2) :: kvs) ++ ('}' :: rest)) hnd.1
          (serObjTail_delim ((k2, v2) :: kvs) rest) (by omega)]
        dsimp only
        simp only [serObjTail, List.cons_append, List.append_assoc,
          List.singleton_append, List.nil_append]
        rw [skipWs_not_ws (by decide)]
        split
        · rename_i r3 heq3
          exfalso
          have he : (',' : Char) = '}' := by
            first
              | exact List.head_eq_of_cons_eq heq3
              | exact (List.head_eq_of_cons_eq heq3).symm
          exact absurd he (by decide)
        · rename_i r3 heq3
          have hr3 : ' ' :: (serStr k2 ++ (':' :: (' ' :: (serialize v2
              ++ (serObjTail kvs ++ ('}' :: rest)))))) = r3 := by
            first
              | exact List.tail_eq_of_cons_eq heq3
              | exact (List.tail_eq_of_cons_eq heq3).symm
          rw [← hr3, parseMembers_ws (by decide), dictInsert_fresh acc k v hfr]
          have hkeys2 : keysNodup ((acc ++ [(k, v)]) ++ (k2, v2) :: kvs) = true := by
            rw [List.append_assoc, List.singleton_append]
            exact hkeys
          have hfl : jweightKVs ((k2, v2) :: kvs) + ((k2, v2) :: kvs).length ≤ f := by
            have := jweight_pos v
            simp only [jweightKVs, List.length_cons] at hfuel ⊢
            omega
          rw [parseMembers_ser k2 v2 kvs (acc ++ [(k, v)]) f rest hnd.2 hkeys2 hfl]
          rw [List.append_assoc, List.singleton_append]
        · rename_i hne1 hne2
          exact absurd rfl (hne2 (' ' :: (serStr k2 ++ (':' :: (' ' :: (serialize v2
            ++ (serObjTail kvs ++ ('}' :: rest))))))))
      · rename_i hne
        exact absurd rfl (hne (' ' :: (serialize v
          ++ (serObjTail ((k2, v2) :: kvs) ++ ('}' :: rest)))))
    · rename_i hne
      exact absurd rfl (hne (escList k ++ ('"' :: (':' :: (' ' :: (serialize v
        ++ (serObjTail ((k2, v2) :: kvs) ++ ('}' :: rest))))))))
termination_by k v kvs _ _ _ _ _ _ => jweight v + jweightKVs kvs + kvs.length + 1
decreasing_by
  all_goals try simp only [jweight, jweightList, jweightKVs, List.length_cons]
  all_goals first
    | omega
    | (have hp := jweight_pos v; omega)

end

theorem parseTop_serialize (v : Json) (hnd : noDupKeys v = true) :
    parseTop (serialize v) = some v := by
  rw [parseTop]
  have hfuel : jweight v ≤ 2 * (serialize v).length + 2 := by
    have := jweight_le v
    omega
  have h := parseVal_serialize v (2 * (serialize v).length + 2) [] hnd rfl hfuel
  rw [List.append_nil] at h
  rw [h]
  rfl

theorem keysNodup_iff : ∀ l : List (List Char × Json),
    keysNodup l = true ↔ (l.map Prod.fst).Nodup
  | [] => by simp [keysNodup]
  | (k, v) :: l => by
    rw [keysNodup]
    simp only [Bool.and_eq_true, Bool.not_eq_true', List.any_eq_false, List.map_cons,
      List.nodup_cons, List.mem_map]
    rw [keysNodup_iff l]
    constructor
    · rintro ⟨h1, h2⟩
      refine ⟨?_, h2⟩
      rintro ⟨q, hq, hqk⟩
      have h3 := h1 q hq
      first
        | exact absurd hqk h3
        | exact absurd hqk (by simpa using h3)
    · rintro ⟨h1, h2⟩
      refine ⟨?_, h2⟩
      intro q hq
      first
        | exact fun hqk => h1 ⟨q, hq, hqk⟩
        | (simp only [decide_eq_false_iff_not]
           exact fun hqk => h1 ⟨q, hq, hqk⟩)
        | (simp only [decide_eq_false_iff_not, Bool.not_eq_true]
           exact fun hqk => h1 ⟨q, hq, hqk⟩)

theorem noDupKeysKVs_iff : ∀ l : List (List Char × Json),
    noDupKeysKVs l = true ↔ ∀ p ∈ l, noDupKeys p.2 = true
  | [] => by simp [noDupKeysKVs]
  | (k, v) :: l => by
    rw [noDupKeysKVs]
    simp only [Bool.and_eq_true, List.mem_cons]
    rw [noDupKeysKVs_iff l]
    constructor
    · rintro ⟨h1, h2⟩ p hp
      rcases hp with rfl | hp
      · exact h1
      · exact h2 p hp
    · intro h
      exact ⟨h (k, v) (Or.inl rfl), fun p hp => h p (Or.inr hp)⟩

theorem dictInsert_keys_replace (acc : List (List Char × Json)) (k : List Char) (v : Json) :
    (acc.map (fun p => if p.1 = k then (k, v) else p)).map Prod.fst = acc.map Prod.fst := by
  induction acc with
  | nil => rfl
  | cons q acc ih =>
    simp only [List.map_cons, ih]
    by_cases hq : q.1 = k
    · simp [hq]
    · simp [hq]

theorem dictInsert_nodup (acc : List (List Char × Json)) (k : List Char) (v : Json)
    (h1 : keysNodup acc = true) (h2 : noDupKeysKVs acc = true) (hv : noDupKeys v = true) :
    keysNodup (dictInsert acc k v) = true ∧ noDupKeysKVs (dictInsert acc k v) = true := by
  rw [dictInsert]
  split_ifs with hmem
  · constructor
    · rw [keysNodup_iff, dictInsert_keys_replace]
      exact (keysNodup_iff acc).mp h1
    · rw [noDupKeysKVs_iff]
      intro p hp
      simp only [List.mem_map] at hp
      obtain ⟨q, hq, rfl⟩ := hp
      by_cases hqk : q.1 = k
      · simp [hqk, hv]
      · simp only [if_neg hqk]
        exact (noDupKeysKVs_iff acc).mp h2 q hq
  · constructor
    · rw [keysNodup_iff, List.map_append]
      simp only [List.map_cons, List.map_nil]
      rw [List.nodup_append]
      refine ⟨(keysNodup_iff acc).mp h1, by simp, ?_⟩
      intro a ha hb
      simp at hb
      simp only [List.mem_map] at ha
      obtain ⟨q, hq, hqk⟩ := ha
      have hq1 : q.1 = k := by rw [hqk, hb]
      have hany : acc.any (fun p => p.1 = k) = true := by
        rw [List.any_eq_true]
        exact ⟨q, hq, by simp [hq1]⟩
      exact hmem hany
    · rw [noDupKeysKVs_iff]
      intro p hp
      rcases List.mem_append.mp hp with hp | hp
      · exact (noDupKeysKVs_iff acc).mp h2 p hp
      · simp at hp
        subst hp
        exact hv

mutual

theorem parseVal_noDup : ∀ (f : Nat) (s : List Char) (v : Json) (r : List Char),
    parseVal f s = some (v, r) → noDupKeys v = true
  | 0, s, v, r => by
    intro h
    rw [parseVal] at h
    exact absurd h (by simp)
  | f + 1, s, v, r => by
    intro h
    rw [parseVal] at h
    generalize hts : skipWs s = ts at h
    cases ts with
    | nil => exact absurd h (by simp)
    | cons c cs =>
      dsimp only at h
      split_ifs at h with h1 h2 h3 h4 h5 h6 h7
      · split at h
        · simp only [Option.some.injEq, Prod.mk.injEq] at h
          obtain ⟨hv, _⟩ := h
          subst hv
          rfl
        · exact absurd h (by simp)
      · split at h
        · simp only [Option.some.injEq, Prod.mk.injEq] at h
          obtain ⟨hv, _⟩ := h
          subst hv
          rfl
        · exact absurd h (by simp)
      · split at h
        · simp only [Option.some.injEq, Prod.mk.injEq] at h
          obtain ⟨hv, _⟩ := h
          subst hv
          rfl
        · exact absurd h (by simp)
      · generalize hps : parseStrBody cs = ps at h
        cases ps with
        | none => exact absurd h (by simp [Option.map])
        | some p =>
          simp only [Option.map, Option.some.injEq, Prod.mk.injEq] at h
          obtain ⟨hv, _⟩ := h
          subst hv
          rfl
      · split at h
        · simp only [Option.some.injEq, Prod.mk.injEq] at h
          obtain ⟨hv, _⟩ := h
          subst hv
          rfl
        · generalize hpe : parseElems f cs = pe at h
          cases pe with
          | none => exact absurd h (by simp [Option.map])
          | some p =>
            simp only [Option.map, Option.some.injEq, Prod.mk.injEq] at h
            obtain ⟨hv, _⟩ := h
            subst hv
            rw [noDupKeys]
            exact parseElems_noDup f cs p.1 p.2 (by rw [hpe])
      · split at h
        · simp only [Option.some.injEq, Prod.mk.injEq] at h
          obtain ⟨hv, _⟩ := h
          subst hv
          rfl
        · generalize hpm : parseMembers f cs [] = pm at h
          cases pm with
          | none => exact absurd h (by simp [Option.map])
          | some p =>
            simp only [Option.map, Option.some.injEq, Prod.mk.injEq] at h
            obtain ⟨hv, _⟩ := h
            subst hv
            rw [noDupKeys]
            have hp := parseMembers_noDup f cs [] p.1 p.2 rfl rfl (by rw [hpm])
            simp [hp.1, hp.2]
      · generalize hpi : parseIntFrom (c :: cs) = pi at h
        cases pi with
        | none => exact absurd h (by simp [Option.map])
        | some p =>
          simp only [Option.map, Option.some.injEq, Prod.mk.injEq] at h
          obtain ⟨hv, _⟩ := h
          subst hv
          rfl

theorem parseElems_noDup : ∀ (f : Nat) (s : List Char) (vs : List Json) (r : List Char),
    parseElems f s = some (vs, r) → noDupKeysList vs = true
  | 0, s, vs, r => by
    intro h
    rw [parseElems] at h
    exact absurd h (by simp)
  | f + 1, s, vs, r => by
    intro h
    rw [parseElems] at h
    generalize hpv : parseVal f s = pv at h
    cases pv with
    | none => exact absurd h (by simp)
    | some p =>
      obtain ⟨v1, r1⟩ := p
      have hv1 := parseVal_noDup f s v1 r1 hpv
      dsimp only at h
      split at h
      · simp only [Option.some.injEq, Prod.mk.injEq] at h
        obtain ⟨hv, _⟩ := h
        subst hv
        rw [noDupKeysList, hv1, noDupKeysList]
        rfl
      · generalize hpe : parseElems f _ = pe at h
        cases pe with
        | none => exact absurd h (by simp)
        | some q =>
          obtain ⟨vs2, r2⟩ := q
          have hvs2 := parseElems_noDup f _ vs2 r2 hpe
          simp only [Option.some.injEq, Prod.mk.injEq] at h
          obtain ⟨hv, _⟩ := h
          subst hv
          rw [noDupKeysList, hv1, hvs2]
          rfl
      · exact absurd h (by simp)

theorem parseMembers_noDup : ∀ (f : Nat) (s : List Char)
    (acc out : List (List Char × Json)) (r : List Char),
    keysNodup acc = true → noDupKeysKVs acc = true →
    parseMembers f s acc = some (out, r) →
    keysNodup out = true ∧ noDupKeysKVs out = true
  | 0, s, acc, out, r => by
    intro _ _ h
    rw [parseMembers] at h
    exact absurd h (by simp)
  | f + 1, s, acc, out, r => by
    intro hk hnv h
    rw [parseMembers] at h
    generalize hts : skipWs s = ts at h
    split at h
    · generalize hps : parseStrBody _ = ps at h
      cases ps with
      | none => exact absurd h (by simp)
      | some p =>
        obtain ⟨k1, r1⟩ := p
        dsimp only at h
        split at h
        · generalize hpv : parseVal f _ = pv at h
          cases pv with
          | none => exact absurd h (by simp)
          | some q =>
            obtain ⟨v1, r2⟩ := q
            have hv1 := parseVal_noDup f _ v1 r2 hpv
            have hins := dictInsert_nodup acc k1 v1 hk hnv hv1
            dsimp only at h
            split at h
            · simp only [Option.some.injEq, Prod.mk.injEq] at h
              obtain ⟨ho, _⟩ := h
              subst ho
              exact hins
            · exact parseMembers_noDup f _ (dictInsert acc k1 v1) out r hins.1 hins.2 h
            · exact absurd h (by simp)
        · exact absurd h (by simp)
    · exact absurd h (by simp)

end

theorem parseTop_noDup (s : List Char) (v : Json) (h : parseTop s = some v) :
    noDupKeys v = true := by
  rw [parseTop] at h
  generalize hpv : parseVal (2 * s.length + 2) s = pv at h
  cases pv with
  | none => exact absurd h (by simp)
  | some p =>
    obtain ⟨v1, r1⟩ := p
    dsimp only at h
    split_ifs at h
    simp only [Option.some.injEq] at h
    subst h
    exact parseVal_noDup _ s v1 r1 hpv

theorem keyLt_false_nil : ∀ c : List Char, keyLt c [] = false
  | [] => rfl
  | _ :: _ => rfl

theorem keyLt_asymm : ∀ a b : List Char, keyLt a b = true → keyLt b a = false
  | [], [] => by simp [keyLt]
  | [], _ :: _ => fun _ => rfl
  | _ :: _, [] => by simp [keyLt]
  | a :: as, b :: bs => by
    intro h
    rw [keyLt] at h
    rw [keyLt]
    by_cases h1 : a.toNat < b.toNat
    · rw [if_neg (by omega : ¬ b.toNat < a.toNat), if_pos h1]
    · rw [if_neg h1] at h
      by_cases h2 : b.toNat < a.toNat
      · rw [if_pos h2] at h
        exact absurd h (by simp)
      · rw [if_neg h2] at h
        rw [if_neg h2, if_neg h1]
        exact keyLt_asymm as bs h

theorem keyLt_negtrans : ∀ a b c : List Char,
    keyLt b a = false → keyLt c b = false → keyLt c a = false
  | [], b, c => fun _ _ => keyLt_false_nil c
  | a :: as, [], c => by
    intro h1 _
    rw [keyLt] at h1
    exact absurd h1 (by simp)
  | a :: as, b :: bs, [] => by
    intro _ h2
    rw [keyLt] at h2
    exact absurd h2 (by simp)
  | a :: as, b :: bs, c :: cs => by
    intro h1 h2
    rw [keyLt] at h1 h2 ⊢
    by_cases p1 : b.toNat < a.toNat
    · rw [if_pos p1] at h1
      exact absurd h1 (by simp)
    · by_cases q1 : c.toNat < b.toNat
      · rw [if_pos q1] at h2
        exact absurd h2 (by simp)
      · by_cases r1 : c.toNat < a.toNat
        · exact absurd r1 (by omega)
        · rw [if_neg r1]
          by_cases r2 : a.toNat < c.toNat
          · rw [if_pos r2]
          · rw [if_neg r2]
            rw [if_neg p1, if_neg (by omega : ¬ a.toNat < b.toNat)] at h1
            rw [if_neg q1, if_neg (by omega : ¬ b.toNat < c.toNat)] at h2
            exact keyLt_negtrans as bs cs h1 h2


theorem insKV_eq_orderedInsert : ∀ (p : List Char × Json) (l : List (List Char × Json)),
    insKV p l = List.orderedInsert kvr p l
  | p, [] => rfl
  | p, q :: qs => by
    cases hb : keyLt q.1 p.1 with
    | true =>
      rw [insKV, if_pos hb, List.orderedInsert, if_neg (by simp [kvr, hb]),
        insKV_eq_orderedInsert p qs]
    | false =>
      rw [insKV, if_neg (by simp [hb]), List.orderedInsert, if_pos (show kvr p q from hb)]

theorem sortKVs_eq : ∀ l : List (List Char × Json), sortKVs l = List.insertionSort kvr l
  | [] => rfl
  | p :: ps => by
    rw [sortKVs, List.insertionSort, insKV_eq_orderedInsert, sortKVs_eq ps]

theorem sortKVs_perm (l : List (List Char × Json)) : (sortKVs l).Perm l := by
  rw [sortKVs_eq]
  exact List.perm_insertionSort kvr l

theorem sortKVs_mem {p : List Char × Json} {l : List (List Char × Json)}
    (h : p ∈ sortKVs l) : p ∈ l :=
  (sortKVs_perm l).mem_iff.mp h

theorem kvr_total : ∀ p q : List Char × Json, kvr p q ∨ kvr q p := by
  intro p q
  cases hb : keyLt q.1 p.1 with
  | false => exact Or.inl hb
  | true => exact Or.inr (keyLt_asymm _ _ hb)

theorem sortKVs_idem (l : List (List Char × Json)) : sortKVs (sortKVs l) = sortKVs l := by
  rw [sortKVs_eq, sortKVs_eq]
  haveI : IsTotal (List Char × Json) kvr := ⟨kvr_total⟩
  haveI : IsTrans (List Char × Json) kvr := ⟨fun p q r h1 h2 => keyLt_negtrans p.1 q.1 r.1 h1 h2⟩
  exact List.Sorted.insertionSort_eq (List.sorted_insertionSort kvr l)

theorem deepSortKVs_fixed : ∀ l : List (List Char × Json),
    (∀ p ∈ l, deepSort p.2 = p.2) → deepSortKVs l = l
  | [] => fun _ => rfl
  | (k, v) :: l => by
    intro h
    rw [deepSortKVs]
    rw [show deepSort v = v from h (k, v) (List.mem_cons_self _ _),
      deepSortKVs_fixed l (fun p hp => h p (List.mem_cons_of_mem _ hp))]

mutual

theorem deepSort_idem : ∀ v : Json, deepSort (deepSort v) = deepSort v
  | .null => rfl
  | .bool b => rfl
  | .num n => rfl
  | .str s => rfl
  | .arr xs => by
    rw [deepSort, deepSort, deepSortList_idem xs]
  | .obj kvs => by
    rw [deepSort, deepSort]
    have h1 : deepSortKVs (sortKVs (deepSortKVs kvs)) = sortKVs (deepSortKVs kvs) := by
      apply deepSortKVs_fixed
      intro p hp
      exact deepSortKVs_vals kvs p (sortKVs_mem hp)
    rw [h1, sortKVs_idem]

theorem deepSortList_idem : ∀ xs : List Json, deepSortList (deepSortList xs) = deepSortList xs
  | [] => rfl
  | x :: xs => by
    rw [deepSortList, deepSortList, deepSort_idem x, deepSortList_idem xs]

theorem deepSortKVs_vals : ∀ (kvs : List (List Char × Json)) (p : List Char × Json),
    p ∈ deepSortKVs kvs → deepSort p.2 = p.2
  | [], p => by
    intro h
    rw [deepSortKVs] at h
    exact absurd h (by simp)
  | (k, v) :: kvs, p => by
    intro hp
    rw [deepSortKVs] at hp
    rcases List.mem_cons.mp hp with rfl | hp
    · exact deepSort_idem v
    · exact deepSortKVs_vals kvs p hp

end

theorem deepSortKVs_keys : ∀ l : List (List Char × Json),
    (deepSortKVs l).map Prod.fst = l.map Prod.fst
  | [] => rfl
  | (k, v) :: l => by
    rw [deepSortKVs]
    simp only [List.map_cons]
    rw [deepSortKVs_keys l]

mutual

theorem noDup_deepSort : ∀ v : Json, noDupKeys v = true → noDupKeys (deepSort v) = true
  | .null, h => h
  | .bool b, h => h
  | .num n, h => h
  | .str s, h => h
  | .arr xs, h => by
    rw [deepSort, noDupKeys]
    rw [noDupKeys] at h
    exact noDup_deepSortList xs h
  | .obj kvs, h => by
    rw [deepSort, noDupKeys]
    rw [noDupKeys] at h
    simp only [Bool.and_eq_true] at h ⊢
    constructor
    · rw [keysNodup_iff]
      rw [((sortKVs_perm (deepSortKVs kvs)).map Prod.fst).nodup_iff]
      rw [deepSortKVs_keys]
      exact (keysNodup_iff kvs).mp h.1
    · rw [noDupKeysKVs_iff]
      intro p hp
      exact noDup_deepSortKVs_vals kvs h.2 p (sortKVs_mem hp)

theorem noDup_deepSortList : ∀ xs : List Json,
    noDupKeysList xs = true → noDupKeysList (deepSortList xs) = true
  | [], h => h
  | x :: xs, h => by
    rw [noDupKeysList] at h
    simp only [Bool.and_eq_true] at h
    rw [deepSortList, noDupKeysList]
    simp only [Bool.and_eq_true]
    exact ⟨noDup_deepSort x h.1, noDup_deepSortList xs h.2⟩

theorem noDup_deepSortKVs_vals : ∀ (kvs : List (List Char × Json)),
    noDupKeysKVs kvs = true → ∀ p, p ∈ deepSortKVs kvs → noDupKeys p.2 = true
  | [], _, p => by
    intro h
    rw [deepSortKVs] at h
    exact absurd h (by simp)
  | (k, v) :: kvs, h, p => by
    intro hp
    rw [noDupKeysKVs] at h
    simp only [Bool.and_eq_true] at h
    rw [deepSortKVs] at hp
    rcases List.mem_cons.mp hp with rfl | hp
    · exact noDup_deepSort v h.1
    · exact noDup_deepSortKVs_vals kvs h.2 p hp

end

/-- C2: Canonicalization is idempotent: whenever canonicalization of raw text
succeeds and produces canonical bytes, canonicalizing those bytes succeeds and
returns them unchanged, so canonicalizing twice equals canonicalizing once
(`json.load` followed by `json.dumps(..., sort_keys=True)` at
`devtools.py:653-657`). -/
theorem C2_canon_idempotent (s c : List Char) (h : canon s = some c) : canon c = some c := by
  rw [canon] at h
  generalize hp : parseTop s = pv at h
  cases pv with
  | none => exact absurd h (by simp)
  | some v =>
    simp only [Option.map, Option.some.injEq] at h
    subst h
    have hnd : noDupKeys v = true := parseTop_noDup s v hp
    have hnd2 : noDupKeys (deepSort v) = true := noDup_deepSort v hnd
    rw [canon, dumpsSorted, parseTop_serialize (deepSort v) hnd2]
    simp only [Option.map, Option.some.injEq]
    rw [dumpsSorted, deepSort_idem]

theorem C2_canon_idempotent_witness :
    canon "\x7b\"b\": 1, \"a\": 2\x7d".toList = some "\x7b\"a\": 2, \"b\": 1\x7d".toList ∧
    canon "\x7b\"a\": 2, \"b\": 1\x7d".toList = some "\x7b\"a\": 2, \"b\": 1\x7d".toList :=
  ⟨by decide,
    C2_canon_idempotent "\x7b\"b\": 1, \"a\": 2\x7d".toList
      "\x7b\"a\": 2, \"b\": 1\x7d".toList (by decide)⟩
